import Mathlib

/-!
Expression evaluation: tokenizer, shunting yard and postfix evaluator

A shallow embedding of `src/calc.cpp` (with the containers of `src/list.h` and
`src/stack.h`), followed by theorems about it.

Modelling conventions.

* `float` values are rationals (`ℚ`); the rounding of an arithmetic result,
  infinities and NaN are not modelled, so a theorem states a numeric result
  only where it is exact in `float` or is the evaluator's own `applyOperator`.
  `EPSILON` is the exact value of the `float` constant `(float)1e-5`.
* `(int)x` is the mathematical truncation; the source leaves it undefined
  outside the range of `int`, and `INT_MIN % -1` is undefined as well.  The
  theorem about `%` assumes `InIntRange` and excludes that pair.
* `List<Token>` is a Lean list, `push_back` appends at the end.  `Stack<T>` is a
  Lean list whose head is the top of the stack.
* A thrown exception is an `Except.error` carrying an `Err`.
* `std::stof` and `pow` belong to the C++ standard library, not to the
  repository.  The functions that call them take them as parameters (`stof`,
  `pow`), so the general theorems hold for every implementation; `stofDecimal`
  is a concrete decimal-literal parser used for closed examples.
* `List::last()` returns `arr[size - 1]` without a bounds check.  On an empty
  list this reads outside the array; the token found there is the parameter
  `junk` of `last`, and theorems quantify over it.
-/

namespace Calc

/-! ## Tokens -/

/-- The enumeration `Token::Type`. -/
inductive TokenType
  | NUMBER
  | OPERATOR
  | UNARY_MINUS
  | LPAR
  | RPAR
deriving DecidableEq, Repr

/-- The struct `Token`: a type tag, a value and an operator character; each
constructor of the source fills the fields it does not use with `0`. -/
structure Token where
  type : TokenType
  value : ℚ
  op : Char
deriving DecidableEq

/-- The constructor `Token(float p_value)`. -/
def Token.number (p_value : ℚ) : Token := ⟨TokenType.NUMBER, p_value, Char.ofNat 0⟩

/-- The constructor `Token(char p_op)`. -/
def Token.operator (p_op : Char) : Token := ⟨TokenType.OPERATOR, 0, p_op⟩

/-- The constructor `Token(Type p_type)`. -/
def Token.ofType (p_type : TokenType) : Token := ⟨p_type, 0, Char.ofNat 0⟩

/-- The exceptions thrown by the three stages. -/
inductive Err
  /-- "Unexpected token at position `pos`, expected OPERATOR or PARENTESES but found `ch`". -/
  | expectedOperator (pos : Nat) (ch : Char)
  /-- "Unexpected token at position `pos`, expected NUMBER but found `ch`". -/
  | expectedNumber (pos : Nat) (ch : Char)
  /-- "Invalid character at position `pos`: `ch`". -/
  | invalidCharacter (pos : Nat) (ch : Char)
  /-- An exception thrown by `std::stof` called at position `pos`. -/
  | stofFailed (pos : Nat)
  /-- "Mismatched parenthesis". -/
  | mismatchedParenthesis
  /-- "Invalid expression". -/
  | invalidExpression
  /-- "Division by zero". -/
  | divisionByZero
  /-- "Invalid operator". -/
  | invalidOperator
deriving DecidableEq, Repr

/-- The method `List::last`: `arr[size - 1]`.  For an empty list the read is out of
bounds and yields `junk`. -/
def last (junk : Token) (tokens : List Token) : Token :=
  match tokens.getLast? with
  | some t => t
  | none => junk

/-! ## The tokenizer -/

/-- The `case` labels `'0'` to `'9'` and `'.'` of `tokenize`. -/
def isNumberStart (ch : Char) : Bool :=
  ch = '0' ∨ ch = '1' ∨ ch = '2' ∨ ch = '3' ∨ ch = '4' ∨ ch = '5' ∨ ch = '6' ∨
    ch = '7' ∨ ch = '8' ∨ ch = '9' ∨ ch = '.'

/-- The `case` labels `'-'`, `'+'`, `'*'`, `'/'`, `'%'`, `'^'` of `tokenize`. -/
def isOperatorChar (ch : Char) : Bool :=
  ch = '-' ∨ ch = '+' ∨ ch = '*' ∨ ch = '/' ∨ ch = '%' ∨ ch = '^'

/-- The unary-context test of `tokenize` (`||` short-circuits, so `last` is
only read when `i ≠ 0`). -/
def unaryContext (junk : Token) (i : Nat) (tokens : List Token) : Bool :=
  i = 0 ∨ (last junk tokens).type = TokenType.OPERATOR ∨
    (last junk tokens).type = TokenType.LPAR

/-- One iteration of the `for` loop of `tokenize` at position `i`, where `ch` is
`str[i]` and `cs` the characters after it.  Returns the number of further
characters to skip (`offset - 1` after a number, else `0`) and the new token
list. -/
def tokenizeStep (stof : List Char → Option (ℚ × Nat)) (junk : Token) (i : Nat)
    (tokens : List Token) (ch : Char) (cs : List Char) : Except Err (Nat × List Token) :=
  if unaryContext junk i tokens ∧ ch = '+' then
    Except.ok (0, tokens)
  else if unaryContext junk i tokens ∧ ch = '-' then
    Except.ok (0, tokens ++ [Token.ofType TokenType.UNARY_MINUS])
  else if isNumberStart ch then
    if 0 < tokens.length ∧ (last junk tokens).type = TokenType.NUMBER then
      Except.error (Err.expectedOperator i ch)
    else
      match stof (ch :: cs) with
      | none => Except.error (Err.stofFailed i)
      | some (val, offset) => Except.ok (offset - 1, tokens ++ [Token.number val])
  else if ch = ' ' then
    Except.ok (0, tokens)
  else if isOperatorChar ch then
    if (last junk tokens).type = TokenType.OPERATOR ∨
        (last junk tokens).type = TokenType.UNARY_MINUS ∨ i = 0 then
      Except.error (Err.expectedNumber i ch)
    else
      Except.ok (0, tokens ++ [Token.operator ch])
  else if ch = '(' then
    if 0 < tokens.length ∧ ((last junk tokens).type = TokenType.RPAR ∨
        (last junk tokens).type = TokenType.NUMBER) then
      Except.ok (0, tokens ++ [Token.operator '*'] ++ [Token.ofType TokenType.LPAR])
    else
      Except.ok (0, tokens ++ [Token.ofType TokenType.LPAR])
  else if ch = ')' then
    if (last junk tokens).type = TokenType.OPERATOR ∨
        (last junk tokens).type = TokenType.LPAR then
      Except.error (Err.expectedNumber i ')')
    else
      Except.ok (0, tokens ++ [Token.ofType TokenType.RPAR])
  else
    Except.error (Err.invalidCharacter i ch)

/-- The `for` loop of `tokenize`: `skip` characters are passed over (the effect
of `i += offset - 1`), then `tokenizeStep` runs on the next one. -/
def tokenizeLoop (stof : List Char → Option (ℚ × Nat)) (junk : Token) :
    Nat → Nat → List Token → List Char → Except Err (List Token)
  | _, _, tokens, [] => Except.ok tokens
  | skip + 1, i, tokens, _ :: cs => tokenizeLoop stof junk skip (i + 1) tokens cs
  | 0, i, tokens, ch :: cs =>
    match tokenizeStep stof junk i tokens ch cs with
    | Except.error e => Except.error e
    | Except.ok (skip, tokens') => tokenizeLoop stof junk skip (i + 1) tokens' cs

/-- The function `tokenize` of `src/calc.cpp`. -/
def tokenize (stof : List Char → Option (ℚ × Nat)) (junk : Token) (str : List Char) :
    Except Err (List Token) :=
  tokenizeLoop stof junk 0 0 [] str

/-! ### A decimal model of `std::stof` -/

/-- The value of a run of decimal digits. -/
def digitsValue (ds : List Char) : Nat :=
  ds.foldl (fun n c => 10 * n + (c.toNat - '0'.toNat)) 0

/-- The digits of an exponent: `none` when `ds` does not start with a digit,
else the signed value of the leading digits and the number of characters read,
`used` of them before the digits. -/
def stofExponentDigits (negative : Bool) (used : Nat) (ds : List Char) : Option (Int × Nat) :=
  if (ds.takeWhile Char.isDigit).length = 0 then none
  else if negative then
    some (-(digitsValue (ds.takeWhile Char.isDigit) : Int),
      used + (ds.takeWhile Char.isDigit).length)
  else
    some ((digitsValue (ds.takeWhile Char.isDigit) : Int),
      used + (ds.takeWhile Char.isDigit).length)

/-- The exponent part of a decimal literal: `e` or `E`, an optional sign and at
least one digit.  Returns the exponent and the number of characters read;
`none` when there is no exponent part. -/
def stofExponent (s : List Char) : Option (Int × Nat) :=
  match s with
  | [] => none
  | e :: rest =>
    if e = 'e' ∨ e = 'E' then
      match rest with
      | [] => none
      | sign :: ds =>
        if sign = '-' then stofExponentDigits true 2 ds
        else if sign = '+' then stofExponentDigits false 2 ds
        else stofExponentDigits false 1 (sign :: ds)
    else none

/-- The fraction part of a decimal literal that continues with `r1`: the
fraction digits, the characters after them, and `1` if a `.` was read. -/
def stofFraction (r1 : List Char) : List Char × List Char × Nat :=
  match r1 with
  | [] => ([], [], 0)
  | x :: r =>
    if x = '.' then (r.takeWhile Char.isDigit, r.dropWhile Char.isDigit, 1)
    else ([], x :: r, 0)

/-- A model of `std::stof(s, &offset)` on decimal literals: the longest prefix of
the form digits, optional `.`, digits, optional exponent, with at least one
digit before the exponent.  Returns the value and `offset`; `none` when
`std::stof` throws `std::invalid_argument`.  Hexadecimal literals and range
errors are outside this model. -/
def stofDecimal (s : List Char) : Option (ℚ × Nat) :=
  let ip := s.takeWhile Char.isDigit
  let fp := (stofFraction (s.dropWhile Char.isDigit)).1
  let r2 := (stofFraction (s.dropWhile Char.isDigit)).2.1
  let dot := (stofFraction (s.dropWhile Char.isDigit)).2.2
  if ip.length + fp.length = 0 then none
  else
    match stofExponent r2 with
    | none => some ((digitsValue (ip ++ fp) : ℚ) / 10 ^ fp.length, ip.length + dot + fp.length)
    | some (e, k) =>
      some ((digitsValue (ip ++ fp) : ℚ) / 10 ^ fp.length * 10 ^ e,
        ip.length + dot + fp.length + k)

/-! ## Infix to postfix -/

/-- The string `precedence` of `infix_to_postfix`. -/
def precedence : List Char := ['^', '%', '*', '/', '+', '-']

/-- The pointer returned by `strchr(s, c)`, as an address relative to `s - 1`:
the null pointer is `0`, a match at offset `k` is `k + 1`, and the terminating
`'\0'` is found at offset `s.length`. -/
def strchr (s : List Char) (c : Char) : Nat :=
  if c = Char.ofNat 0 then s.length + 1
  else if c ∈ s then s.indexOf c + 1
  else 0

/-- The `while` loop of the `OPERATOR` case: pops operators from `stack` to the
output while the top is not `LPAR` and `strchr(precedence, top.op) <=
strchr(precedence, op)`.  Returns the new stack and output. -/
def popOperators (op : Char) : List Token → List Token → List Token × List Token
  | [], out => ([], out)
  | t :: stack, out =>
    if t.type ≠ TokenType.LPAR then
      if strchr precedence t.op ≤ strchr precedence op then
        popOperators op stack (out ++ [t])
      else (t :: stack, out)
    else (t :: stack, out)

/-- The `while` loop of the `RPAR` case: pops to the output until the stack is
empty or its top is `LPAR`. -/
def popUntilLPar : List Token → List Token → List Token × List Token
  | [], out => ([], out)
  | t :: stack, out =>
    if t.type ≠ TokenType.LPAR then popUntilLPar stack (out ++ [t])
    else (t :: stack, out)

/-- The final `while` loop of `infix_to_postfix`: pops everything to the output
and throws on an `LPAR`. -/
def drainStack : List Token → List Token → Except Err (List Token)
  | [], out => Except.ok out
  | t :: stack, out =>
    if t.type = TokenType.LPAR then Except.error Err.mismatchedParenthesis
    else drainStack stack (out ++ [t])

/-- The `for` loop of `infix_to_postfix` followed by the final loop, from the
state `(out, stack)`. -/
def postfixLoop : List Token → List Token → List Token → Except Err (List Token)
  | [], out, stack => drainStack stack out
  | token :: rest, out, stack =>
    match token.type with
    | TokenType.NUMBER => postfixLoop rest (out ++ [token]) stack
    | TokenType.OPERATOR =>
      postfixLoop rest (popOperators token.op stack out).2
        (token :: (popOperators token.op stack out).1)
    | TokenType.UNARY_MINUS =>
      postfixLoop rest (out ++ [Token.number (-1)]) (Token.operator '*' :: stack)
    | TokenType.LPAR => postfixLoop rest out (token :: stack)
    | TokenType.RPAR =>
      match popUntilLPar stack out with
      | ([], _) => Except.error Err.mismatchedParenthesis
      | (_ :: stack', out') => postfixLoop rest out' stack'

/-- The function `infix_to_postfix` of `src/calc.cpp`. -/
def infix_to_postfix ( tokens_infix : List Token) : Except Err (List Token) :=
  postfixLoop tokens_infix [] []

/-! ## Postfix evaluation -/

/-- The macro `EPSILON`, `(float)1e-5`: the `float` nearest to `1e-5`, which is
`0x1.4f8b58p-17 = 2748779 / 2^38`, a little below `1e-5`. -/
def EPSILON : ℚ := 2748779 / 274877906944

/-- The function `equals`. -/
def equals (a b : ℚ) : Bool := |a - b| < EPSILON

/-- The conversion `(int)x`: truncation toward zero.  The source leaves the
conversion undefined when the truncated value is outside the range of `int`
(see `InIntRange`); the model returns the mathematical truncation there. -/
def toInt (x : ℚ) : Int := x.num.tdiv x.den

/-- The least value of the 32-bit type `int`. -/
def INT_MIN : Int := -2147483648

/-- The greatest value of the 32-bit type `int`. -/
def INT_MAX : Int := 2147483647

/-- The conversion `(int)x` is defined: the truncated value is representable in
the 32-bit type `int`. -/
def InIntRange (x : ℚ) : Prop := INT_MIN ≤ toInt x ∧ toInt x ≤ INT_MAX

/-- The `switch (token.op)` of `evaluate_postfix` applied to the operands
`val_l` and `val_r`.  The results of `+ - * /` are the exact values, where the
source rounds to `float`; `%` is the truncated remainder of the mathematical
truncations, which is what the source computes when both conversions are
defined and the pair is not `INT_MIN % -1`. -/
def applyOperator (pow : ℚ → ℚ → ℚ) (op : Char) (val_l val_r : ℚ) : Except Err ℚ :=
  if op = '-' then Except.ok (val_l - val_r)
  else if op = '+' then Except.ok (val_l + val_r)
  else if op = '*' then Except.ok (val_l * val_r)
  else if op = '%' then
    if toInt val_r = 0 then Except.error Err.divisionByZero
    else Except.ok ((Int.tmod (toInt val_l) (toInt val_r) : Int) : ℚ)
  else if op = '/' then
    if equals val_r 0 then Except.error Err.divisionByZero
    else Except.ok (val_l / val_r)
  else if op = '^' then
    if equals val_l 0 ∧ val_r ≤ EPSILON then Except.error Err.divisionByZero
    else Except.ok (pow val_l val_r)
  else Except.error Err.invalidOperator

/-- The `for` loop of `evaluate_postfix` followed by the final size check, from
the value stack `stack`.  The tests `stack.get_size() < 2` and
`stack.get_size() != 1` are the pattern matches on the stack. -/
def evalLoop (pow : ℚ → ℚ → ℚ) : List Token → List ℚ → Except Err ℚ
  | [], stack =>
    match stack with
    | [v] => Except.ok v
    | _ => Except.error Err.invalidExpression
  | token :: rest, stack =>
    if token.type = TokenType.OPERATOR then
      match stack with
      | val_r :: val_l :: stack' =>
        match applyOperator pow token.op val_l val_r with
        | Except.error e => Except.error e
        | Except.ok out => evalLoop pow rest (out :: stack')
      | _ => Except.error Err.invalidExpression
    else if token.type = TokenType.NUMBER then evalLoop pow rest (token.value :: stack)
    else evalLoop pow rest stack

/-- The function `evaluate_postfix` of `src/calc.cpp`. -/
def evaluate_postfix (pow : ℚ → ℚ → ℚ) (tokens : List Token) : Except Err ℚ :=
  evalLoop pow tokens []

/-- The pipeline of `main`: `tokenize`, then `infix_to_postfix`, then
`evaluate_postfix`. -/
def pipeline (stof : List Char → Option (ℚ × Nat)) (pow : ℚ → ℚ → ℚ) (junk : Token)
    (str : List Char) : Except Err ℚ :=
  match tokenize stof junk str with
  | Except.error e => Except.error e
  | Except.ok tokens_infix =>
    match infix_to_postfix tokens_infix with
    | Except.error e => Except.error e
    | Except.ok tokens_postfix => evaluate_postfix pow tokens_postfix


/-- The precedence tier of an operator symbol in the specification's table:
`^` above `%`, `*`, `/` above `+`, `-`. -/
def specTier (op : Char) : Nat :=
  if op = '^' then 2
  else if op = '%' ∨ op = '*' ∨ op = '/' then 1
  else 0

mutual
/-- Reference recursive descent, following the specification's words: an
operand of tier `tier`.  Tier `3` is a number or a parenthesised expression; an
operand of a lower tier is a left-associative chain of operands of the next
tier.  `fuel` bounds the recursion depth. -/
def referenceOperand (pow : ℚ → ℚ → ℚ) : Nat → Nat → List Token → Option (ℚ × List Token)
  | 0, _, _ => none
  | fuel + 1, 3, t :: rest =>
    match t.type with
    | TokenType.NUMBER => some (t.value, rest)
    | TokenType.LPAR =>
      match referenceOperand pow fuel 0 rest with
      | some (v, r :: rest') => if r.type = TokenType.RPAR then some (v, rest') else none
      | _ => none
    | _ => none
  | _ + 1, 3, [] => none
  | fuel + 1, tier, ts =>
    match referenceOperand pow fuel (tier + 1) ts with
    | some (v, rest) => referenceChain pow fuel tier v rest
    | none => none
/-- Reference recursive descent: continues a chain of tier `tier` whose value so
far is `acc`, combining from the left with the arithmetic of
`applyOperator`. -/
def referenceChain (pow : ℚ → ℚ → ℚ) : Nat → Nat → ℚ → List Token → Option (ℚ × List Token)
  | 0, _, _, _ => none
  | fuel + 1, tier, acc, t :: rest =>
    if t.type = TokenType.OPERATOR ∧ specTier t.op = tier then
      match referenceOperand pow fuel (tier + 1) rest with
      | some (v, rest') =>
        match applyOperator pow t.op acc v with
        | Except.ok acc' => referenceChain pow fuel tier acc' rest'
        | Except.error _ => none
      | none => none
    else some (acc, t :: rest)
  | _ + 1, _, acc, [] => some (acc, [])
end

/-- The reference evaluation of an infix token sequence by recursive descent
with the specification's precedence tiers; `none` when the sequence is not an
expression or the arithmetic fails. -/
def reference_evaluate (pow : ℚ → ℚ → ℚ) (tokens : List Token) : Option ℚ :=
  match referenceOperand pow (4 * tokens.length + 4) 0 tokens with
  | some (v, []) => some v
  | _ => none

/-- `infix_to_postfix` followed by `evaluate_postfix`. -/
def evaluate_infix (pow : ℚ → ℚ → ℚ) (tokens : List Token) : Except Err ℚ :=
  match infix_to_postfix tokens with
  | Except.error e => Except.error e
  | Except.ok tokens_postfix => evaluate_postfix pow tokens_postfix

/-- The number of tokens of type `ty` in `ts`. -/
def countType (ty : TokenType) (ts : List Token) : Nat :=
  (ts.filter (fun t => t.type = ty)).length

/-- The parentheses of `ts` are unbalanced: some prefix holds more `RPAR` than
`LPAR` tokens, or `ts` as a whole holds more `LPAR` than `RPAR` tokens. -/
def Unbalanced (ts : List Token) : Prop :=
  (∃ k, countType TokenType.LPAR (ts.take k) < countType TokenType.RPAR (ts.take k)) ∨
    countType TokenType.RPAR ts < countType TokenType.LPAR ts

/-- A one-pass balance check starting from nesting depth `d`. -/
def balancedFrom : Nat → List Token → Bool
  | d, [] => decide (d = 0)
  | d, t :: ts =>
    match t.type, d with
    | TokenType.LPAR, d => balancedFrom (d + 1) ts
    | TokenType.RPAR, 0 => false
    | TokenType.RPAR, d + 1 => balancedFrom d ts
    | _, d => balancedFrom d ts

/-- No two neighbouring tokens are both `NUMBER`, and no two neighbouring tokens
are both `OPERATOR`. -/
def NoAdjacent (tokens : List Token) : Prop :=
  ∀ (i : Nat) (a b : Token), tokens[i]? = some a → tokens[i + 1]? = some b →
    ¬ (a.type = TokenType.NUMBER ∧ b.type = TokenType.NUMBER) ∧
      ¬ (a.type = TokenType.OPERATOR ∧ b.type = TokenType.OPERATOR)

/-- The relation between neighbours used by `NoAdjacent`. -/
def adjacentOk (a b : Token) : Prop :=
  ¬ (a.type = TokenType.NUMBER ∧ b.type = TokenType.NUMBER) ∧
    ¬ (a.type = TokenType.OPERATOR ∧ b.type = TokenType.OPERATOR)

/-- The last character of `str` that is not a space, if there is one. -/
def lastNonSpace (str : List Char) : Option Char :=
  (str.filter (fun c => c ≠ ' ')).getLast?

/-- What follows a `(` or a `*` has no influence on `std::stof`: a numeric
literal contains neither character, so the conversion of a string that starts
with a digit or `.` stops before it. -/
def StofLocal (stof : List Char → Option (ℚ × Nat)) : Prop :=
  ∀ (d : Char) (u v : List Char) (c : Char), isNumberStart d = true → (c = '(' ∨ c = '*') →
    stof (d :: (u ++ c :: v)) = stof (d :: u)

/-- The `offset` reported by `std::stof` is at most the length of its input. -/
def StofBounded (stof : List Char → Option (ℚ × Nat)) : Prop :=
  ∀ (s : List Char) (val : ℚ) (offset : Nat), stof s = some (val, offset) → offset ≤ s.length

/-- The depth of the value stack after `ts`, counting `+1` for each `NUMBER` and
`-1` for each `OPERATOR`. -/
def depthAfter (ts : List Token) : Int :=
  (countType TokenType.NUMBER ts : Int) - (countType TokenType.OPERATOR ts : Int)

/-- Well-formed postfix: the running depth is at least `2` immediately before
every `OPERATOR`, and the final depth is exactly `1`. -/
def WellFormedPostfix (ts : List Token) : Prop :=
  (∀ (k : Nat) (t : Token), ts[k]? = some t → t.type = TokenType.OPERATOR →
      2 ≤ depthAfter (ts.take k)) ∧
    depthAfter ts = 1

/-- Every token is a `NUMBER`, or an `OPERATOR` whose symbol is `+`, `-` or `*`. -/
def PlusMinusTimesOnly (ts : List Token) : Prop :=
  ∀ t ∈ ts, t.type = TokenType.NUMBER ∨
    (t.type = TokenType.OPERATOR ∧ (t.op = '+' ∨ t.op = '-' ∨ t.op = '*'))

/-- A one-pass check of well-formed postfix from a value stack of size `d`. -/
def postfixOk : Nat → List Token → Bool
  | d, [] => decide (d = 1)
  | d, t :: ts =>
    match t.type, d with
    | TokenType.OPERATOR, d + 2 => postfixOk (d + 1) ts
    | TokenType.OPERATOR, _ => false
    | TokenType.NUMBER, d => postfixOk (d + 1) ts
    | _, d => postfixOk d ts

/-- No `NUMBER` token stands directly after an `RPAR` token. -/
def NoNumberAfterRPar (tokens : List Token) : Prop :=
  ∀ (i : Nat) (a b : Token), tokens[i]? = some a → tokens[i + 1]? = some b →
    ¬ (a.type = TokenType.RPAR ∧ b.type = TokenType.NUMBER)

/-- The relation between neighbours used by `NoNumberAfterRPar`. -/
def notRParNumber (a b : Token) : Prop :=
  ¬ (a.type = TokenType.RPAR ∧ b.type = TokenType.NUMBER)

/-- The operand balance of the tokens emitted so far: at most one more `NUMBER`
than `OPERATOR` tokens, and no more `NUMBER` than `OPERATOR` tokens unless the
last token is a `NUMBER` or an `RPAR`. -/
def OperandBalance (tokens : List Token) : Prop :=
  depthAfter tokens ≤ 1 ∧
    ((∀ t, tokens.getLast? = some t →
        t.type ≠ TokenType.NUMBER ∧ t.type ≠ TokenType.RPAR) → depthAfter tokens ≤ 0)

/-- The infix tokens `op x1 op x2 ... op xn` that continue a chain of one
operator. -/
def operatorChain (op : Char) : List ℚ → List Token
  | [] => []
  | x :: xs => Token.operator op :: Token.number x :: operatorChain op xs

/-- The postfix tokens `x1 op x2 op ... xn op` that continue a left fold. -/
def operandChain (op : Char) : List ℚ → List Token
  | [] => []
  | x :: xs => Token.number x :: Token.operator op :: operandChain op xs

/-- The left fold of `xs` from `acc` with the arithmetic of `applyOperator`;
the first error stops it. -/
def foldOperator (pow : ℚ → ℚ → ℚ) (op : Char) : ℚ → List ℚ → Except Err ℚ
  | acc, [] => Except.ok acc
  | acc, x :: xs =>
    match applyOperator pow op acc x with
    | Except.error e => Except.error e
    | Except.ok v => foldOperator pow op v xs

/-- A power function for closed examples: `a` to the power of the truncated
exponent, for exponents that are natural numbers. -/
def natPow (a b : ℚ) : ℚ := a ^ (toInt b).toNat

/-- The token sequence `ts` with all `LPAR`, `RPAR` and `UNARY_MINUS` tokens
removed. -/
def removeIgnored (ts : List Token) : List Token :=
  ts.filter (fun t => decide (t.type ≠ TokenType.LPAR ∧ t.type ≠ TokenType.RPAR ∧
    t.type ≠ TokenType.UNARY_MINUS))

/-- Whether the iteration of `tokenize` at position `i` on the character `ch`
calls `tokens.last()` outside a `get_size() > 0` test: in the unary-context test
when `i ≠ 0`, in the operator case (reached by an operator character that the
unary-context branch has not consumed), and in the `)` case. -/
def stepCallsLast (junk : Token) (i : Nat) (tokens : List Token) (ch : Char) : Bool :=
  i ≠ 0 ∨
    (isOperatorChar ch = true ∧ ¬ (unaryContext junk i tokens = true ∧ (ch = '+' ∨ ch = '-'))) ∨
    ch = ')'

/-- Whether the run of the loop of `tokenize` from the given state calls
`tokens.last()` on an empty token list, that is, reads `arr[size - 1]` with
`size = 0`. -/
def readsLastOfEmpty (stof : List Char → Option (ℚ × Nat)) (junk : Token) :
    Nat → Nat → List Token → List Char → Bool
  | _, _, _, [] => false
  | skip + 1, i, tokens, _ :: cs => readsLastOfEmpty stof junk skip (i + 1) tokens cs
  | 0, i, tokens, ch :: cs =>
    (decide (tokens = []) && stepCallsLast junk i tokens ch) ||
      (match tokenizeStep stof junk i tokens ch cs with
        | Except.error _ => false
        | Except.ok (skip, tokens') => readsLastOfEmpty stof junk skip (i + 1) tokens' cs)

/-- An `OPERATOR` token carries one of the six symbols `+ - * / % ^`. -/
def KnownOperator (t : Token) : Prop :=
  t.type = TokenType.OPERATOR → isOperatorChar t.op = true

/-! # Theorems -/

/-! ## Operator precedence in `infix_to_postfix` -/

/-- C1 (evaluated at the failing inputs): `popOperators` compares positions in
the string `"^%*/+-"`, so an operator on the stack is not popped by an operator
of the same tier that stands earlier in the string: `-` stays below `+`, and `/`
stays below `*` and `%`, and `*` below `%`; in the opposite order the top is
popped.  Hence `2 - 3 + 4` is converted to `2 3 4 + -`. -/
theorem popOperators_same_tier (out : List Token) :
    popOperators '+' [Token.operator '-'] out = ([Token.operator '-'], out) ∧
    popOperators '*' [Token.operator '/'] out = ([Token.operator '/'], out) ∧
    popOperators '%' [Token.operator '/'] out = ([Token.operator '/'], out) ∧
    popOperators '%' [Token.operator '*'] out = ([Token.operator '*'], out) ∧
    popOperators '-' [Token.operator '+'] out = ([], out ++ [Token.operator '+']) ∧
    popOperators '/' [Token.operator '*'] out = ([], out ++ [Token.operator '*']) ∧
    specTier '-' = specTier '+' ∧ specTier '/' = specTier '*' ∧
    infix_to_postfix [Token.number 2, Token.operator '-', Token.number 3,
        Token.operator '+', Token.number 4] =
      Except.ok [Token.number 2, Token.number 3, Token.number 4,
        Token.operator '+', Token.operator '-'] := by
  simp [ infix_to_postfix, postfixLoop, drainStack, popOperators, strchr, precedence, specTier,
    Token.operator, Token.number]

/-- C2 (evaluated at the failing inputs): the tokens of `a - b + c` evaluate to
`a - (b + c)` and the tokens of `a / b * c` to `a / (b * c)` (or to the
division-by-zero error when `b * c` is within `EPSILON` of zero); on
`4 - 5 + 1` the reference evaluation gives `0` and the program gives `-2`. -/
theorem evaluate_infix_same_tier (pow : ℚ → ℚ → ℚ) (a b c : ℚ) :
    evaluate_infix pow [Token.number a, Token.operator '-', Token.number b,
        Token.operator '+', Token.number c] = Except.ok (a - (b + c)) ∧
    evaluate_infix pow [Token.number a, Token.operator '/', Token.number b,
        Token.operator '*', Token.number c] =
      (if equals (b * c) 0 then Except.error Err.divisionByZero
        else Except.ok (a / (b * c))) ∧
    reference_evaluate pow [Token.number 4, Token.operator '-', Token.number 5,
        Token.operator '+', Token.number 1] = some 0 ∧
    evaluate_infix pow [Token.number 4, Token.operator '-', Token.number 5,
        Token.operator '+', Token.number 1] = Except.ok (-2) := by
  refine ⟨?_, ?_, ?_, ?_⟩
  · simp [ evaluate_infix, infix_to_postfix, postfixLoop, drainStack, popOperators, strchr,
      precedence, evaluate_postfix, evalLoop, applyOperator, Token.operator, Token.number]
  · by_cases h : equals (b * c) 0 = true
    · simp [ evaluate_infix, infix_to_postfix, postfixLoop, drainStack, popOperators, strchr,
        precedence, evaluate_postfix, evalLoop, applyOperator, Token.operator, Token.number, h]
    · simp [ evaluate_infix, infix_to_postfix, postfixLoop, drainStack, popOperators, strchr,
        precedence, evaluate_postfix, evalLoop, applyOperator, Token.operator, Token.number, h]
  · simp [reference_evaluate, referenceOperand, referenceChain, specTier, applyOperator,
      Token.operator, Token.number]
    norm_num
  · simp [ evaluate_infix, infix_to_postfix, postfixLoop, drainStack, popOperators, strchr,
      precedence, evaluate_postfix, evalLoop, applyOperator, Token.operator, Token.number]
    norm_num

theorem countType_cons (ty : TokenType) (t : Token) (ts : List Token) :
    countType ty (t :: ts) = (if t.type = ty then 1 else 0) + countType ty ts := by
  unfold countType
  by_cases h : t.type = ty <;> simp [List.filter_cons, h, Nat.add_comm]

theorem countType_nil (ty : TokenType) : countType ty [] = 0 := rfl

theorem forall_nat_iff (P : Nat → Prop) : (∀ k, P k) ↔ (P 0 ∧ ∀ k, P (k + 1)) := by
  constructor
  · intro h; exact ⟨h 0, fun k => h (k + 1)⟩
  · rintro ⟨h0, h1⟩ k
    cases k with
    | zero => exact h0
    | succ k => exact h1 k

theorem balancedFrom_iff (ts : List Token) : ∀ d : Nat,
    balancedFrom d ts = true ↔
      (∀ k, countType TokenType.RPAR (ts.take k) ≤ countType TokenType.LPAR (ts.take k) + d) ∧
        countType TokenType.LPAR ts + d = countType TokenType.RPAR ts := by
  induction ts with
  | nil =>
    intro d
    simp [balancedFrom, countType_nil]
  | cons t ts ih =>
    intro d
    rw [forall_nat_iff]
    simp only [List.take_zero, List.take_succ_cons, countType_nil, countType_cons]
    cases hty : t.type
    case LPAR =>
      simp only [balancedFrom, hty, ih, reduceCtorEq, if_true, if_false]
      constructor
      · rintro ⟨h1, h2⟩
        exact ⟨⟨by omega, fun k => by have := h1 k; omega⟩, by omega⟩
      · rintro ⟨⟨_, h1⟩, h2⟩
        exact ⟨fun k => by have := h1 k; omega, by omega⟩
    case RPAR =>
      cases d with
      | zero =>
        simp only [balancedFrom, hty, reduceCtorEq, if_true, if_false]
        constructor
        · intro h; cases h
        · rintro ⟨⟨_, h1⟩, _⟩
          have h0 := h1 0
          simp only [List.take_zero, countType_nil] at h0
          omega
      | succ d =>
        simp only [balancedFrom, hty, ih, reduceCtorEq, if_true, if_false]
        constructor
        · rintro ⟨h1, h2⟩
          exact ⟨⟨by omega, fun k => by have := h1 k; omega⟩, by omega⟩
        · rintro ⟨⟨_, h1⟩, h2⟩
          exact ⟨fun k => by have := h1 k; omega, by omega⟩
    all_goals
      simp only [balancedFrom, hty, ih, reduceCtorEq, if_true, if_false]
      constructor
      · rintro ⟨h1, h2⟩
        exact ⟨⟨by omega, fun k => by have := h1 k; omega⟩, by omega⟩
      · rintro ⟨⟨_, h1⟩, h2⟩
        exact ⟨fun k => by have := h1 k; omega, by omega⟩

theorem balancedFrom_zero_iff (ts : List Token) : balancedFrom 0 ts = true ↔ ¬ Unbalanced ts := by
  rw [balancedFrom_iff]
  unfold Unbalanced
  constructor
  · rintro ⟨h1, h2⟩ (⟨k, hk⟩ | h)
    · have := h1 k
      omega
    · omega
  · intro h
    have h1 : ∀ k, countType TokenType.RPAR (ts.take k) ≤ countType TokenType.LPAR (ts.take k) := by
      intro k
      by_contra hk
      exact h (Or.inl ⟨k, by omega⟩)
    refine ⟨fun k => by have := h1 k; omega, ?_⟩
    have h2 := h1 ts.length
    simp only [List.take_length] at h2
    have h3 : ¬ countType TokenType.RPAR ts < countType TokenType.LPAR ts := fun hh => h (Or.inr hh)
    omega

theorem popOperators_countLPar (op : Char) (stack : List Token) : ∀ out : List Token,
    countType TokenType.LPAR (popOperators op stack out).1 = countType TokenType.LPAR stack := by
  induction stack with
  | nil => intro out; rfl
  | cons t stack ih =>
    intro out
    unfold popOperators
    by_cases h1 : t.type ≠ TokenType.LPAR
    · by_cases h2 : strchr precedence t.op ≤ strchr precedence op
      · rw [if_pos h1, if_pos h2, ih, countType_cons, if_neg h1, Nat.zero_add]
      · rw [if_pos h1, if_neg h2]
    · rw [if_neg h1]

theorem popUntilLPar_of_countLPar_eq_zero (stack : List Token) : ∀ out : List Token,
    countType TokenType.LPAR stack = 0 → (popUntilLPar stack out).1 = [] := by
  induction stack with
  | nil => intro out _; rfl
  | cons t stack ih =>
    intro out h
    rw [countType_cons] at h
    unfold popUntilLPar
    by_cases h1 : t.type = TokenType.LPAR
    · rw [if_pos h1] at h; omega
    · rw [if_neg h1] at h
      rw [if_pos h1]
      exact ih _ (by omega)

theorem popUntilLPar_of_countLPar_pos (stack : List Token) : ∀ out : List Token,
    0 < countType TokenType.LPAR stack →
      ∃ t stack', (popUntilLPar stack out).1 = t :: stack' ∧
        countType TokenType.LPAR stack' + 1 = countType TokenType.LPAR stack := by
  induction stack with
  | nil => intro out h; simp [countType_nil] at h
  | cons t stack ih =>
    intro out h
    rw [countType_cons] at h
    unfold popUntilLPar
    by_cases h1 : t.type = TokenType.LPAR
    · refine ⟨t, stack, ?_, ?_⟩
      · rw [if_neg (by simpa using h1)]
      · rw [countType_cons, if_pos h1]; omega
    · rw [if_neg h1] at h
      rw [if_pos h1, countType_cons, if_neg h1]
      obtain ⟨t', stack', e1, e2⟩ := ih (out ++ [t]) (by omega)
      exact ⟨t', stack', e1, by omega⟩

theorem drainStack_of_countLPar_eq_zero (stack : List Token) : ∀ out : List Token,
    countType TokenType.LPAR stack = 0 → drainStack stack out = Except.ok (out ++ stack) := by
  induction stack with
  | nil => intro out _; simp [drainStack]
  | cons t stack ih =>
    intro out h
    rw [countType_cons] at h
    unfold drainStack
    by_cases h1 : t.type = TokenType.LPAR
    · rw [if_pos h1] at h; omega
    · rw [if_neg h1] at h
      rw [if_neg h1, ih _ (by omega)]
      simp

theorem drainStack_of_countLPar_pos (stack : List Token) : ∀ out : List Token,
    0 < countType TokenType.LPAR stack →
      drainStack stack out = Except.error Err.mismatchedParenthesis := by
  induction stack with
  | nil => intro out h; simp [countType_nil] at h
  | cons t stack ih =>
    intro out h
    rw [countType_cons] at h
    unfold drainStack
    by_cases h1 : t.type = TokenType.LPAR
    · rw [if_pos h1]
    · rw [if_neg h1] at h
      rw [if_neg h1]
      exact ih _ (by omega)

theorem postfixLoop_balanced (ts : List Token) : ∀ out stack : List Token,
    (balancedFrom (countType TokenType.LPAR stack) ts = true →
        ∃ p, postfixLoop ts out stack = Except.ok p) ∧
      (balancedFrom (countType TokenType.LPAR stack) ts = false →
        postfixLoop ts out stack = Except.error Err.mismatchedParenthesis) := by
  induction ts with
  | nil =>
    intro out stack
    simp only [balancedFrom, postfixLoop, decide_eq_true_eq, decide_eq_false_iff_not]
    constructor
    · intro h
      exact ⟨_, drainStack_of_countLPar_eq_zero stack out h⟩
    · intro h
      exact drainStack_of_countLPar_pos stack out (by omega)
  | cons t ts ih =>
    intro out stack
    cases hty : t.type
    case NUMBER =>
      simp only [balancedFrom, postfixLoop, hty]
      exact ih _ _
    case OPERATOR =>
      simp only [balancedFrom, postfixLoop, hty]
      have := ih (popOperators t.op stack out).2 (t :: (popOperators t.op stack out).1)
      rw [countType_cons, hty, if_neg (by decide), Nat.zero_add, popOperators_countLPar] at this
      exact this
    case UNARY_MINUS =>
      simp only [balancedFrom, postfixLoop, hty]
      have := ih (out ++ [Token.number (-1)]) (Token.operator '*' :: stack)
      rw [countType_cons, if_neg (by simp [Token.operator]), Nat.zero_add] at this
      exact this
    case LPAR =>
      simp only [balancedFrom, postfixLoop, hty]
      have := ih out (t :: stack)
      rw [countType_cons, hty, if_pos rfl, Nat.add_comm] at this
      exact this
    case RPAR =>
      rcases hd : countType TokenType.LPAR stack with _ | d
      · have h0 := popUntilLPar_of_countLPar_eq_zero stack out hd
        rcases hp : popUntilLPar stack out with ⟨s', o'⟩
        rw [hp] at h0
        simp only at h0
        subst h0
        simp [balancedFrom, postfixLoop, hty, hp]
      · obtain ⟨t', stack', e1, e2⟩ := popUntilLPar_of_countLPar_pos stack out (by omega)
        rcases hp : popUntilLPar stack out with ⟨s', o'⟩
        rw [hp] at e1
        simp only at e1
        subst e1
        simp only [balancedFrom, postfixLoop, hty, hp]
        have := ih o' stack'
        rw [show countType TokenType.LPAR stack' = d by omega] at this
        exact this


/-- C3: `infix_to_postfix` fails with the mismatched-parenthesis error exactly
when the parentheses of the token sequence are unbalanced, and returns a postfix
sequence exactly when they are balanced. -/
theorem infix_to_postfix_mismatched_iff_unbalanced (ts : List Token) :
    ( infix_to_postfix ts = Except.error Err.mismatchedParenthesis ↔ Unbalanced ts) ∧
      ((∃ p, infix_to_postfix ts = Except.ok p) ↔ ¬ Unbalanced ts) := by
  have h := postfixLoop_balanced ts [] []
  rw [countType_nil] at h
  have hU := balancedFrom_zero_iff ts
  unfold infix_to_postfix
  cases hb : balancedFrom 0 ts
  · have he := h.2 hb
    have hu : Unbalanced ts := by
      by_contra hn
      rw [hU.mpr hn] at hb
      cases hb
    rw [he]
    simp [hu]
  · obtain ⟨p, hp⟩ := h.1 hb
    have hu : ¬ Unbalanced ts := hU.mp hb
    rw [hp]
    simp [hu]

theorem last_of_getLast? (junk : Token) (tokens : List Token) (y : Token)
    (h : tokens.getLast? = some y) : last junk tokens = y := by
  simp [last, h]

theorem last_append_singleton (junk : Token) (tokens : List Token) (x : Token) :
    last junk (tokens ++ [x]) = x := by
  simp [last]

theorem last_nil (junk : Token) : last junk [] = junk := rfl

theorem chain_append_singleton (l : List Token) (x : Token) :
    List.Chain' adjacentOk (l ++ [x]) ↔
      List.Chain' adjacentOk l ∧ ∀ y, l.getLast? = some y → adjacentOk y x := by
  rw [List.chain'_append]
  simp

theorem noAdjacent_of_chain (tokens : List Token) (h : List.Chain' adjacentOk tokens) :
    NoAdjacent tokens := by
  intro i a b ha hb
  rw [List.chain'_iff_get] at h
  have hi : i + 1 < tokens.length := by
    rcases Nat.lt_or_ge (i + 1) tokens.length with h1 | h1
    · exact h1
    · rw [List.getElem?_eq_none_iff.mpr h1] at hb
      cases hb
  have := h i (by omega)
  rw [List.getElem?_eq_getElem (by omega)] at ha hb
  simp only [Option.some.injEq] at ha hb
  simp only [List.get_eq_getElem, ha, hb] at this
  exact this

theorem tokenizeStep_chain (stof : List Char → Option (ℚ × Nat)) (junk : Token) (i : Nat)
    (tokens : List Token) (ch : Char) (cs : List Char) (skip : Nat) (tokens' : List Token)
    (h : tokenizeStep stof junk i tokens ch cs = Except.ok (skip, tokens'))
    (hc : List.Chain' adjacentOk tokens) : List.Chain' adjacentOk tokens' := by
  unfold tokenizeStep at h
  split_ifs at h with h1 h2 h3 h4 h5 h6 h7 h8 h9 h10 h11
  · cases h; exact hc
  · cases h
    rw [chain_append_singleton]
    refine ⟨hc, fun y _ => ?_⟩
    simp [adjacentOk, Token.ofType]
  · split at h
    · cases h
    · cases h
      rw [chain_append_singleton]
      refine ⟨hc, fun y hy => ?_⟩
      have hl := last_of_getLast? junk tokens y hy
      have hlen : 0 < tokens.length := by
        cases tokens with
        | nil => simp at hy
        | cons _ _ => simp
      rw [hl] at h4
      simp only [adjacentOk, Token.number]
      refine ⟨fun hh => h4 ⟨hlen, hh.1⟩, fun hh => by simp at hh⟩
  · cases h; exact hc
  · cases h
    rw [chain_append_singleton]
    refine ⟨hc, fun y hy => ?_⟩
    have hl := last_of_getLast? junk tokens y hy
    rw [hl] at h7
    simp only [adjacentOk, Token.operator]
    refine ⟨fun hh => by simp at hh, fun hh => h7 (Or.inl hh.1)⟩
  · cases h
    rw [chain_append_singleton, chain_append_singleton]
    refine ⟨⟨hc, fun y hy => ?_⟩, fun y hy => ?_⟩
    · have hl := last_of_getLast? junk tokens y hy
      rw [hl] at h9
      simp only [adjacentOk, Token.operator]
      refine ⟨fun hh => by simp at hh, fun hh => ?_⟩
      rcases h9.2 with h | h <;> rw [hh.1] at h <;> cases h
    · simp [adjacentOk, Token.ofType]
  · cases h
    rw [chain_append_singleton]
    refine ⟨hc, fun y _ => ?_⟩
    simp [adjacentOk, Token.ofType]
  · cases h
    rw [chain_append_singleton]
    refine ⟨hc, fun y _ => ?_⟩
    simp [adjacentOk, Token.ofType]

theorem tokenizeLoop_chain (stof : List Char → Option (ℚ × Nat)) (junk : Token)
    (str : List Char) : ∀ (skip i : Nat) (tokens result : List Token),
    tokenizeLoop stof junk skip i tokens str = Except.ok result →
      List.Chain' adjacentOk tokens → List.Chain' adjacentOk result := by
  induction str with
  | nil =>
    intro skip i tokens result h hc
    simp only [tokenizeLoop] at h
    cases h
    exact hc
  | cons ch cs ih =>
    intro skip i tokens result h hc
    cases skip with
    | succ skip =>
      simp only [tokenizeLoop] at h
      exact ih _ _ _ _ h hc
    | zero =>
      simp only [tokenizeLoop] at h
      split at h
      · cases h
      · rename_i sk tk hstep
        exact ih _ _ _ _ h (tokenizeStep_chain stof junk i tokens ch cs sk tk hstep hc)

/-- C4: a token sequence returned by `tokenize` has no two neighbouring `NUMBER`
tokens and no two neighbouring `OPERATOR` tokens; with the decimal model of
`std::stof` the inputs `5.3.3`, `2 3` and `2 +* 3` are rejected. -/
theorem tokenize_no_adjacent (stof : List Char → Option (ℚ × Nat)) (junk : Token)
    (str : List Char) (tokens : List Token)
    (h : tokenize stof junk str = Except.ok tokens) :
    NoAdjacent tokens ∧
      tokenize stofDecimal junk ['5', '.', '3', '.', '3'] =
        Except.error (Err.expectedOperator 3 '.') ∧
      tokenize stofDecimal junk ['2', ' ', '3'] = Except.error (Err.expectedOperator 2 '3') ∧
      tokenize stofDecimal junk ['2', ' ', '+', '*', ' ', '3'] =
        Except.error (Err.expectedNumber 3 '*') := by
  refine ⟨?_, ?_, ?_, ?_⟩
  · exact noAdjacent_of_chain tokens
      (tokenizeLoop_chain stof junk str 0 0 [] tokens h List.chain'_nil)
  · simp [tokenize, tokenizeLoop, tokenizeStep, unaryContext, last, isNumberStart,
      isOperatorChar, stofDecimal, stofFraction, stofExponent, stofExponentDigits, digitsValue, Token.number, Token.operator,
      Token.ofType]
  · simp [tokenize, tokenizeLoop, tokenizeStep, unaryContext, last, isNumberStart,
      isOperatorChar, stofDecimal, stofFraction, stofExponent, stofExponentDigits, digitsValue, Token.number, Token.operator,
      Token.ofType]
  · simp [tokenize, tokenizeLoop, tokenizeStep, unaryContext, last, isNumberStart,
      isOperatorChar, stofDecimal, stofFraction, stofExponent, stofExponentDigits, digitsValue, Token.number, Token.operator,
      Token.ofType]

/-- Witness for `tokenize_no_adjacent` on the input `2(3)`. -/
theorem tokenize_no_adjacent_witness :
    tokenize stofDecimal (Token.number 0) ['2', '(', '3', ')'] =
        Except.ok [Token.number 2, Token.operator '*', Token.ofType TokenType.LPAR,
          Token.number 3, Token.ofType TokenType.RPAR] ∧
      NoAdjacent [Token.number 2, Token.operator '*', Token.ofType TokenType.LPAR,
          Token.number 3, Token.ofType TokenType.RPAR] :=
  have h : tokenize stofDecimal (Token.number 0) ['2', '(', '3', ')'] =
      Except.ok [Token.number 2, Token.operator '*', Token.ofType TokenType.LPAR,
        Token.number 3, Token.ofType TokenType.RPAR] := by
    simp [tokenize, tokenizeLoop, tokenizeStep, unaryContext, last, isNumberStart,
      isOperatorChar, stofDecimal, stofFraction, stofExponent, stofExponentDigits, digitsValue, Token.number, Token.operator,
      Token.ofType]
  ⟨h, (tokenize_no_adjacent stofDecimal (Token.number 0) ['2', '(', '3', ')'] _ h).1⟩

/-! ## The last token returned by `tokenize` -/

theorem lastNonSpace_cons (c : Char) (cs : List Char) :
    lastNonSpace (c :: cs) =
      match lastNonSpace cs with
      | some d => some d
      | none => if c = ' ' then none else some c := by
  unfold lastNonSpace
  by_cases hc : c = ' '
  · rw [List.filter_cons_of_neg (by simpa using hc), if_pos hc]
    cases (List.filter (fun c => decide (c ≠ ' ')) cs).getLast? <;> rfl
  · rw [List.filter_cons_of_pos (by simpa using hc), if_neg hc]
    rcases hl : List.filter (fun c => decide (c ≠ ' ')) cs with _ | ⟨d, ds⟩
    · rfl
    · rw [List.getLast?_cons_cons]
      cases hd : (d :: ds).getLast? with
      | none => simp at hd
      | some x => rfl

/-- After a step that asks to skip characters, the last token is a `NUMBER`. -/
theorem tokenizeStep_skip_pos (stof : List Char → Option (ℚ × Nat)) (junk : Token) (i : Nat)
    (tokens : List Token) (ch : Char) (cs : List Char) (skip : Nat) (tokens' : List Token)
    (h : tokenizeStep stof junk i tokens ch cs = Except.ok (skip, tokens'))
    (hs : 0 < skip) : ∃ t, tokens'.getLast? = some t ∧ t.type = TokenType.NUMBER := by
  unfold tokenizeStep at h
  split_ifs at h
  all_goals first
    | (cases h; omega)
    | skip
  split at h
  · cases h
  · cases h
    exact ⟨_, List.getLast?_concat _, rfl⟩

/-- A step on a space leaves the tokens unchanged. -/
theorem tokenizeStep_space (stof : List Char → Option (ℚ × Nat)) (junk : Token) (i : Nat)
    (tokens : List Token) (cs : List Char) :
    tokenizeStep stof junk i tokens ' ' cs = Except.ok (0, tokens) := by
  simp [tokenizeStep, isNumberStart]

/-- A successful step on a character that is neither a space nor an operator
symbol pushes a token that is not an `OPERATOR`. -/
theorem tokenizeStep_last_not_operator (stof : List Char → Option (ℚ × Nat)) (junk : Token)
    (i : Nat) (tokens : List Token) (ch : Char) (cs : List Char) (skip : Nat)
    (tokens' : List Token)
    (h : tokenizeStep stof junk i tokens ch cs = Except.ok (skip, tokens'))
    (h1 : ch ≠ ' ') (h2 : isOperatorChar ch = false) :
    ∃ t, tokens'.getLast? = some t ∧ t.type ≠ TokenType.OPERATOR := by
  have hp : ch ≠ '+' := by
    rintro rfl
    simp [isOperatorChar] at h2
  have hm : ch ≠ '-' := by
    rintro rfl
    simp [isOperatorChar] at h2
  unfold tokenizeStep at h
  simp only [hp, hm, h1, h2, and_false, if_false, Bool.false_eq_true] at h
  split_ifs at h
  · split at h
    · cases h
    · cases h
      exact ⟨_, List.getLast?_concat _, by simp [Token.number]⟩
  · cases h
    exact ⟨_, List.getLast?_concat _, by simp [Token.ofType]⟩
  · cases h
    exact ⟨_, List.getLast?_concat _, by simp [Token.ofType]⟩
  · cases h
    exact ⟨_, List.getLast?_concat _, by simp [Token.ofType]⟩

theorem tokenizeLoop_last_not_operator (stof : List Char → Option (ℚ × Nat)) (junk : Token)
    (str : List Char) : ∀ (skip i : Nat) (tokens result : List Token),
    tokenizeLoop stof junk skip i tokens str = Except.ok result →
      (0 < skip → ∃ t, tokens.getLast? = some t ∧ t.type = TokenType.NUMBER) →
      (lastNonSpace str = none → ∀ t, tokens.getLast? = some t → t.type ≠ TokenType.OPERATOR) →
      (∀ c, lastNonSpace str = some c → isOperatorChar c = false) →
      ∀ t, result.getLast? = some t → t.type ≠ TokenType.OPERATOR := by
  induction str with
  | nil =>
    intro skip i tokens result h _ hn _
    simp only [tokenizeLoop] at h
    cases h
    exact hn rfl
  | cons ch cs ih =>
    intro skip i tokens result h hsk hn hc
    rw [lastNonSpace_cons] at hn hc
    cases skip with
    | succ skip =>
      simp only [tokenizeLoop] at h
      obtain ⟨t0, ht0, hty0⟩ := hsk (by omega)
      refine ih _ _ _ _ h (fun _ => ⟨t0, ht0, hty0⟩) ?_ ?_
      · intro _ t ht
        rw [ht0] at ht
        cases ht
        rw [hty0]
        decide
      · intro c hcs
        rw [hcs] at hc
        exact hc c rfl
    | zero =>
      simp only [tokenizeLoop] at h
      split at h
      · cases h
      · rename_i sk tk hstep
        refine ih _ _ _ _ h (tokenizeStep_skip_pos stof junk i tokens ch cs sk tk hstep) ?_ ?_
        · intro hcs
          rw [hcs] at hn hc
          by_cases hsp : ch = ' '
          · subst hsp
            rw [tokenizeStep_space] at hstep
            cases hstep
            exact hn (by simp)
          · simp only [hsp, if_false] at hc
            obtain ⟨t0, ht0, hty0⟩ :=
              tokenizeStep_last_not_operator stof junk i tokens ch cs sk tk hstep hsp (hc ch rfl)
            intro t ht
            rw [ht0] at ht
            cases ht
            exact hty0
        · intro c hcs
          rw [hcs] at hc
          exact hc c rfl

/-- C5 (counterexample): on `4 - 5 /` the tokenizer succeeds and the last token
of the returned sequence is the operator `/`. -/
theorem tokenize_trailing_operator :
    tokenize stofDecimal (Token.number 0) ['4', ' ', '-', ' ', '5', ' ', '/'] =
        Except.ok [Token.number 4, Token.operator '-', Token.number 5, Token.operator '/'] ∧
      ([Token.number 4, Token.operator '-', Token.number 5, Token.operator '/'].getLast?.map
        Token.type) = some TokenType.OPERATOR := by
  simp [tokenize, tokenizeLoop, tokenizeStep, unaryContext, last, isNumberStart,
    isOperatorChar, stofDecimal, stofFraction, stofExponent, stofExponentDigits, digitsValue, Token.number, Token.operator,
    Token.ofType]

/-- C5 (amended): when `tokenize` succeeds on an input whose last non-space
character is not one of `+ - * / % ^`, the last token of the returned sequence is
not an `OPERATOR`. -/
theorem tokenize_last_not_operator (stof : List Char → Option (ℚ × Nat)) (junk : Token)
    (str : List Char) (tokens : List Token)
    (h : tokenize stof junk str = Except.ok tokens)
    (hc : ∀ c, lastNonSpace str = some c → isOperatorChar c = false) :
    ∀ t, tokens.getLast? = some t → t.type ≠ TokenType.OPERATOR := by
  refine tokenizeLoop_last_not_operator stof junk str 0 0 [] tokens h ?_ ?_ hc
  · intro h0
    omega
  · intro _ t ht
    simp at ht

/-- Witness for `tokenize_last_not_operator` on the input `2*(3) `. -/
theorem tokenize_last_not_operator_witness :
    tokenize stofDecimal (Token.number 0) ['2', '*', '(', '3', ')', ' '] =
        Except.ok [Token.number 2, Token.operator '*', Token.ofType TokenType.LPAR,
          Token.number 3, Token.ofType TokenType.RPAR] ∧
      (∀ c, lastNonSpace ['2', '*', '(', '3', ')', ' '] = some c → isOperatorChar c = false) ∧
      ∀ t, [Token.number 2, Token.operator '*', Token.ofType TokenType.LPAR,
          Token.number 3, Token.ofType TokenType.RPAR].getLast? = some t →
        t.type ≠ TokenType.OPERATOR :=
  have h : tokenize stofDecimal (Token.number 0) ['2', '*', '(', '3', ')', ' '] =
      Except.ok [Token.number 2, Token.operator '*', Token.ofType TokenType.LPAR,
        Token.number 3, Token.ofType TokenType.RPAR] := by
    simp [tokenize, tokenizeLoop, tokenizeStep, unaryContext, last, isNumberStart,
      isOperatorChar, stofDecimal, stofFraction, stofExponent, stofExponentDigits, digitsValue, Token.number, Token.operator,
      Token.ofType]
  have hc : ∀ c, lastNonSpace ['2', '*', '(', '3', ')', ' '] = some c →
      isOperatorChar c = false := by
    intro c hc
    simp [lastNonSpace, List.filter] at hc
    subst hc
    simp [isOperatorChar]
  ⟨h, hc, tokenize_last_not_operator stofDecimal (Token.number 0) _ _ h hc⟩

/-! ## An operator as the first token -/

/-- C6 (evaluated at the failing inputs): the guard of the operator case tests
`i == 0`, not whether a token has been emitted.  On ` *3` and `+*3` the operator
`*` is met at position `1` with an empty token list, `last` reads outside the
array, and when the token read there is neither an `OPERATOR` nor a
`UNARY_MINUS` (here a zero `NUMBER`) the tokenizer returns a sequence that starts
with `Operator('*')`; when it is an `OPERATOR` the tokenizer throws.  At
position `0`, as in `*1 + 2 + 3`, it always throws. -/
theorem tokenize_operator_first :
    tokenize stofDecimal (Token.number 0) [' ', '*', '3'] =
        Except.ok [Token.operator '*', Token.number 3] ∧
      tokenize stofDecimal (Token.number 0) ['+', '*', '3'] =
        Except.ok [Token.operator '*', Token.number 3] ∧
      tokenize stofDecimal (Token.operator '+') [' ', '*', '3'] =
        Except.error (Err.expectedNumber 1 '*') ∧
      tokenize stofDecimal (Token.number 0) ['*', '1', ' ', '+', ' ', '2', ' ', '+', ' ', '3'] =
        Except.error (Err.expectedNumber 0 '*') := by
  simp [tokenize, tokenizeLoop, tokenizeStep, unaryContext, last, isNumberStart,
    isOperatorChar, stofDecimal, stofFraction, stofExponent, stofExponentDigits, digitsValue,
    Token.number, Token.operator, Token.ofType]

/-! ## Implicit multiplication -/

theorem tokenizeLoop_cons_succ (stof : List Char → Option (ℚ × Nat)) (junk : Token)
    (skip i : Nat) (tokens : List Token) (ch : Char) (cs : List Char) :
    tokenizeLoop stof junk (skip + 1) i tokens (ch :: cs) =
      tokenizeLoop stof junk skip (i + 1) tokens cs := rfl

theorem tokenizeLoop_cons_zero (stof : List Char → Option (ℚ × Nat)) (junk : Token)
    (i : Nat) (tokens : List Token) (ch : Char) (cs : List Char) :
    tokenizeLoop stof junk 0 i tokens (ch :: cs) =
      match tokenizeStep stof junk i tokens ch cs with
      | Except.error e => Except.error e
      | Except.ok (skip, tokens') => tokenizeLoop stof junk skip (i + 1) tokens' cs := rfl

theorem tokenizeStep_append (stof : List Char → Option (ℚ × Nat)) (junk : Token)
    (hloc : StofLocal stof) (i : Nat) (tokens : List Token) (ch : Char) (cs rest : List Char)
    (c : Char) (hc : c = '(' ∨ c = '*') :
    tokenizeStep stof junk i tokens ch (cs ++ c :: rest) =
      tokenizeStep stof junk i tokens ch cs := by
  unfold tokenizeStep
  by_cases hn : isNumberStart ch = true
  · rw [hloc ch cs rest c hn hc]
  · simp only [hn, if_false, Bool.false_eq_true]

theorem tokenizeStep_skip_le (stof : List Char → Option (ℚ × Nat)) (junk : Token)
    (hb : StofBounded stof) (i : Nat) (tokens : List Token) (ch : Char) (cs : List Char)
    (skip : Nat) (tokens' : List Token)
    (h : tokenizeStep stof junk i tokens ch cs = Except.ok (skip, tokens')) :
    skip ≤ cs.length := by
  unfold tokenizeStep at h
  split_ifs at h
  all_goals first
    | (cases h; omega)
    | skip
  split at h
  · cases h
  · rename_i val offset hst
    cases h
    have := hb _ _ _ hst
    simp only [List.length_cons] at this
    omega

theorem tokenizeLoop_append (stof : List Char → Option (ℚ × Nat)) (junk : Token)
    (hloc : StofLocal stof) (hb : StofBounded stof) (rest : List Char) (c : Char)
    (hc : c = '(' ∨ c = '*') (s : List Char) :
    ∀ (skip i : Nat) (tokens tokens' : List Token),
      tokenizeLoop stof junk skip i tokens s = Except.ok tokens' → skip ≤ s.length →
      tokenizeLoop stof junk skip i tokens (s ++ c :: rest) =
        tokenizeLoop stof junk 0 (i + s.length) tokens' (c :: rest) := by
  induction s with
  | nil =>
    intro skip i tokens tokens' h hs
    simp only [List.length_nil, Nat.le_zero_eq] at hs
    subst hs
    simp only [tokenizeLoop] at h
    cases h
    rfl
  | cons ch cs ih =>
    intro skip i tokens tokens' h hs
    simp only [List.length_cons] at hs
    cases skip with
    | succ skip =>
      rw [tokenizeLoop_cons_succ] at h
      rw [List.cons_append, tokenizeLoop_cons_succ, ih _ _ _ _ h (by omega)]
      simp only [List.length_cons]
      congr 1
      omega
    | zero =>
      rw [tokenizeLoop_cons_zero] at h
      rw [List.cons_append, tokenizeLoop_cons_zero,
        tokenizeStep_append stof junk hloc i tokens ch cs rest c hc]
      split at h
      · cases h
      · rename_i sk tk hstep
        rw [ih _ _ _ _ h (tokenizeStep_skip_le stof junk hb i tokens ch cs sk tk hstep)]
        simp only [List.length_cons]
        congr 1
        omega

/-- Away from position `0` the position only shows in the error that is thrown. -/
theorem tokenizeStep_position (stof : List Char → Option (ℚ × Nat)) (junk : Token)
    (i j : Nat) (hi : i ≠ 0) (hj : j ≠ 0) (tokens : List Token) (ch : Char) (cs : List Char) :
    (tokenizeStep stof junk i tokens ch cs).toOption =
      (tokenizeStep stof junk j tokens ch cs).toOption := by
  have hu : unaryContext junk i tokens = unaryContext junk j tokens := by
    simp only [unaryContext, hi, hj, false_or]
  unfold tokenizeStep
  rw [hu]
  simp only [hi, hj, or_false]
  by_cases h1 : unaryContext junk j tokens = true ∧ ch = '+'
  · simp only [h1, and_self, if_true, Except.toOption]
  simp only [h1, if_false]
  by_cases h2 : unaryContext junk j tokens = true ∧ ch = '-'
  · simp only [h2, and_self, if_true, Except.toOption]
  simp only [h2, if_false]
  by_cases h3 : isNumberStart ch = true
  · simp only [h3, if_true]
    by_cases h4 : 0 < tokens.length ∧ (last junk tokens).type = TokenType.NUMBER
    · simp only [h4, and_self, if_true, Except.toOption]
    · simp only [h4, if_false]
      cases stof (ch :: cs) <;> simp only [Except.toOption]
  simp only [h3, Bool.false_eq_true, if_false]
  by_cases h5 : ch = ' '
  · simp only [h5, if_true, Except.toOption]
  simp only [h5, if_false]
  by_cases h6 : isOperatorChar ch = true
  · simp only [h6, if_true]
    by_cases h7 : (last junk tokens).type = TokenType.OPERATOR ∨
        (last junk tokens).type = TokenType.UNARY_MINUS
    · simp only [h7, if_true, Except.toOption]
    · simp only [h7, if_false, Except.toOption]
  simp only [h6, Bool.false_eq_true, if_false]
  by_cases h8 : ch = '('
  · simp only [h8, if_true]
  simp only [h8, if_false]
  by_cases h10 : ch = ')'
  · simp only [h10, if_true]
    by_cases h11 : (last junk tokens).type = TokenType.OPERATOR ∨
        (last junk tokens).type = TokenType.LPAR
    · simp only [h11, if_true, Except.toOption]
    · simp only [h11, if_false, Except.toOption]
  simp only [h10, if_false, Except.toOption]

theorem tokenizeLoop_position (stof : List Char → Option (ℚ × Nat)) (junk : Token)
    (cs : List Char) : ∀ (skip i j : Nat) (tokens : List Token), i ≠ 0 → j ≠ 0 →
      (tokenizeLoop stof junk skip i tokens cs).toOption =
        (tokenizeLoop stof junk skip j tokens cs).toOption := by
  induction cs with
  | nil =>
    intro skip i j tokens _ _
    simp only [tokenizeLoop]
  | cons ch cs ih =>
    intro skip i j tokens hi hj
    cases skip with
    | succ skip =>
      simp only [tokenizeLoop]
      exact ih _ _ _ _ (by omega) (by omega)
    | zero =>
      simp only [tokenizeLoop]
      have hstep := tokenizeStep_position stof junk i j hi hj tokens ch cs
      rcases h1 : tokenizeStep stof junk i tokens ch cs with e1 | ⟨sk1, tk1⟩ <;>
        rcases h2 : tokenizeStep stof junk j tokens ch cs with e2 | ⟨sk2, tk2⟩ <;>
        rw [h1, h2] at hstep <;> simp only [Except.toOption] at hstep
      · rfl
      · cases hstep
      · cases hstep
      · cases hstep
        exact ih _ _ _ _ (by omega) (by omega)

theorem tokenizeStep_extends (stof : List Char → Option (ℚ × Nat)) (junk : Token) (i : Nat)
    (tokens : List Token) (ch : Char) (cs : List Char) (skip : Nat) (tokens' : List Token)
    (h : tokenizeStep stof junk i tokens ch cs = Except.ok (skip, tokens')) :
    ∃ more, tokens' = tokens ++ more := by
  unfold tokenizeStep at h
  split_ifs at h
  all_goals first
    | (cases h; exact ⟨_, rfl⟩)
    | (cases h; exact ⟨_, List.append_assoc _ _ _⟩)
    | (cases h; exact ⟨[], (List.append_nil _).symm⟩)
    | skip
  split at h
  · cases h
  · cases h
    exact ⟨_, rfl⟩

theorem tokenizeLoop_extends (stof : List Char → Option (ℚ × Nat)) (junk : Token)
    (cs : List Char) : ∀ (skip i : Nat) (tokens result : List Token),
      tokenizeLoop stof junk skip i tokens cs = Except.ok result →
      ∃ more, result = tokens ++ more := by
  induction cs with
  | nil =>
    intro skip i tokens result h
    simp only [tokenizeLoop] at h
    cases h
    exact ⟨[], by simp⟩
  | cons ch cs ih =>
    intro skip i tokens result h
    cases skip with
    | succ skip =>
      simp only [tokenizeLoop] at h
      exact ih _ _ _ _ h
    | zero =>
      simp only [tokenizeLoop] at h
      split at h
      · cases h
      · rename_i sk tk hstep
        obtain ⟨m1, rfl⟩ := tokenizeStep_extends stof junk i tokens ch cs sk tk hstep
        obtain ⟨m2, rfl⟩ := ih _ _ _ _ h
        exact ⟨m1 ++ m2, by simp⟩

theorem toOption_eq_some_iff {α : Type} (x : Except Err α) (r : α) :
    x.toOption = some r ↔ x = Except.ok r := by
  cases x <;> simp [Except.toOption]

theorem tokenizeStep_lpar_implicit (stof : List Char → Option (ℚ × Nat)) (junk : Token)
    (i : Nat) (tokens : List Token) (cs : List Char) (x : Token)
    (hx : tokens.getLast? = some x)
    (hty : x.type = TokenType.NUMBER ∨ x.type = TokenType.RPAR) :
    tokenizeStep stof junk i tokens '(' cs =
      Except.ok (0, tokens ++ [Token.operator '*'] ++ [Token.ofType TokenType.LPAR]) := by
  have hlast := last_of_getLast? junk tokens x hx
  have hlen : 0 < tokens.length := by
    cases tokens with
    | nil => simp at hx
    | cons _ _ => simp
  have hcond : 0 < tokens.length ∧ ((last junk tokens).type = TokenType.RPAR ∨
      (last junk tokens).type = TokenType.NUMBER) := by
    rw [hlast]
    exact ⟨hlen, hty.symm⟩
  unfold tokenizeStep
  rw [if_neg (by simp), if_neg (by simp), if_neg (by simp [isNumberStart]), if_neg (by simp),
    if_neg (by simp [isOperatorChar]), if_pos rfl, if_pos hcond]

theorem tokenizeStep_star (stof : List Char → Option (ℚ × Nat)) (junk : Token)
    (i : Nat) (hi : i ≠ 0) (tokens : List Token) (cs : List Char) (x : Token)
    (hx : tokens.getLast? = some x)
    (hty : x.type = TokenType.NUMBER ∨ x.type = TokenType.RPAR) :
    tokenizeStep stof junk i tokens '*' cs = Except.ok (0, tokens ++ [Token.operator '*']) := by
  have hlast := last_of_getLast? junk tokens x hx
  have hcond : ¬ ((last junk tokens).type = TokenType.OPERATOR ∨
      (last junk tokens).type = TokenType.UNARY_MINUS ∨ i = 0) := by
    rw [hlast]
    rcases hty with h | h <;> simp [h, hi]
  unfold tokenizeStep
  rw [if_neg (by simp), if_neg (by simp), if_neg (by simp [isNumberStart]), if_neg (by simp),
    if_pos (by simp [isOperatorChar]), if_neg hcond]

theorem tokenizeStep_lpar_after_operator (stof : List Char → Option (ℚ × Nat)) (junk : Token)
    (i : Nat) (tokens : List Token) (cs : List Char) (op : Char) :
    tokenizeStep stof junk i (tokens ++ [Token.operator op]) '(' cs =
      Except.ok (0, tokens ++ [Token.operator op] ++ [Token.ofType TokenType.LPAR]) := by
  have hcond : ¬ (0 < (tokens ++ [Token.operator op]).length ∧
      ((last junk (tokens ++ [Token.operator op])).type = TokenType.RPAR ∨
        (last junk (tokens ++ [Token.operator op])).type = TokenType.NUMBER)) := by
    rw [last_append_singleton]
    simp [Token.operator]
  unfold tokenizeStep
  rw [if_neg (by simp), if_neg (by simp), if_neg (by simp [isNumberStart]), if_neg (by simp),
    if_neg (by simp [isOperatorChar]), if_pos rfl, if_neg hcond]

/-- The core of C7 for an arbitrary `std::stof`: after a prefix `s` whose last
token is a `NUMBER` or an `RPAR`, the inputs `s(t` and `s*(t` give the same
result up to the position in an error, and a returned sequence continues the
tokens of `s` with `*` and `(`. -/
theorem tokenizeLoop_implicit_multiplication (stof : List Char → Option (ℚ × Nat))
    (junk : Token) (hloc : StofLocal stof) (hb : StofBounded stof) (s t : List Char)
    (toks : List Token) (x : Token)
    (hs : tokenize stof junk s = Except.ok toks) (hx : toks.getLast? = some x)
    (hty : x.type = TokenType.NUMBER ∨ x.type = TokenType.RPAR) :
    (∀ r, tokenize stof junk (s ++ '(' :: t) = Except.ok r ↔
        tokenize stof junk (s ++ '*' :: '(' :: t) = Except.ok r) ∧
      (∀ r, tokenize stof junk (s ++ '(' :: t) = Except.ok r →
        ∃ more, r = toks ++ [Token.operator '*', Token.ofType TokenType.LPAR] ++ more) := by
  have hne : s.length ≠ 0 := by
    intro h0
    have : s = [] := List.length_eq_zero.mp h0
    subst this
    simp only [tokenize, tokenizeLoop] at hs
    cases hs
    simp at hx
  have hA : tokenize stof junk (s ++ '(' :: t) =
      tokenizeLoop stof junk 0 (s.length + 1)
        (toks ++ [Token.operator '*'] ++ [Token.ofType TokenType.LPAR]) t := by
    unfold tokenize at hs ⊢
    rw [tokenizeLoop_append stof junk hloc hb t '(' (Or.inl rfl) s 0 0 [] toks hs
      (Nat.zero_le _), tokenizeLoop_cons_zero,
      tokenizeStep_lpar_implicit stof junk _ toks t x hx hty, Nat.zero_add]
  have hB : tokenize stof junk (s ++ '*' :: '(' :: t) =
      tokenizeLoop stof junk 0 (s.length + 1 + 1)
        (toks ++ [Token.operator '*'] ++ [Token.ofType TokenType.LPAR]) t := by
    unfold tokenize at hs ⊢
    rw [tokenizeLoop_append stof junk hloc hb ('(' :: t) '*' (Or.inr rfl) s 0 0 [] toks hs
      (Nat.zero_le _), tokenizeLoop_cons_zero, Nat.zero_add,
      tokenizeStep_star stof junk _ hne toks ('(' :: t) x hx hty]
    simp only
    rw [tokenizeLoop_cons_zero, tokenizeStep_lpar_after_operator]
  have hpos := tokenizeLoop_position stof junk t 0 (s.length + 1) (s.length + 1 + 1)
    (toks ++ [Token.operator '*'] ++ [Token.ofType TokenType.LPAR]) (by omega) (by omega)
  refine ⟨fun r => ?_, fun r hr => ?_⟩
  · rw [hA, hB, ← toOption_eq_some_iff, ← toOption_eq_some_iff, hpos]
  · rw [hA] at hr
    obtain ⟨more, rfl⟩ := tokenizeLoop_extends stof junk t _ _ _ _ hr
    exact ⟨more, by simp⟩

/-! ### The decimal model of `std::stof` is local and bounded -/

theorem takeWhile_append_stop (p : Char → Bool) (c : Char) (v : List Char) (hc : p c = false)
    (w : List Char) : (w ++ c :: v).takeWhile p = w.takeWhile p := by
  induction w with
  | nil => simp [List.takeWhile, hc]
  | cons a w ih =>
    rw [List.cons_append, List.takeWhile_cons, List.takeWhile_cons, ih]

theorem dropWhile_append_stop (p : Char → Bool) (c : Char) (v : List Char) (hc : p c = false)
    (w : List Char) : (w ++ c :: v).dropWhile p = w.dropWhile p ++ c :: v := by
  induction w with
  | nil => simp [List.dropWhile, hc]
  | cons a w ih =>
    rw [List.cons_append, List.dropWhile_cons, List.dropWhile_cons, ih]
    split <;> rfl

theorem stofExponentDigits_append (negative : Bool) (used : Nat) (c : Char) (v : List Char)
    (hc : Char.isDigit c = false) (ds : List Char) :
    stofExponentDigits negative used (ds ++ c :: v) = stofExponentDigits negative used ds := by
  unfold stofExponentDigits
  rw [takeWhile_append_stop Char.isDigit c v hc]

theorem stofExponentDigits_nil (negative : Bool) (used : Nat) :
    stofExponentDigits negative used [] = none := rfl

theorem stofExponentDigits_stop (negative : Bool) (used : Nat) (c : Char) (v : List Char)
    (hc : Char.isDigit c = false) : stofExponentDigits negative used (c :: v) = none := by
  simp [stofExponentDigits, List.takeWhile, hc]

theorem stofExponent_append (c : Char) (v : List Char) (hc : c = '(' ∨ c = '*')
    (r : List Char) : stofExponent (r ++ c :: v) = stofExponent r := by
  have hd : Char.isDigit c = false := by
    rcases hc with rfl | rfl <;> decide
  have hm : c ≠ '-' := by
    rcases hc with rfl | rfl <;> decide
  have hp : c ≠ '+' := by
    rcases hc with rfl | rfl <;> decide
  have he : ¬ (c = 'e' ∨ c = 'E') := by
    rcases hc with rfl | rfl <;> decide
  cases r with
  | nil =>
    simp only [List.nil_append, stofExponent, he, if_false]
  | cons e rest =>
    simp only [List.cons_append, stofExponent]
    by_cases h : e = 'e' ∨ e = 'E'
    · simp only [h, if_true]
      cases rest with
      | nil =>
        simp only [List.nil_append, hm, hp, if_false]
        exact stofExponentDigits_stop false 1 c v hd
      | cons sign ds =>
        simp only [List.cons_append]
        rw [stofExponentDigits_append true 2 c v hd, stofExponentDigits_append false 2 c v hd,
          ← List.cons_append, stofExponentDigits_append false 1 c v hd]
    · simp only [h, if_false]

theorem stofFraction_append (c : Char) (v : List Char) (hc : c = '(' ∨ c = '*')
    (r : List Char) :
    stofFraction (r ++ c :: v) =
      ((stofFraction r).1, (stofFraction r).2.1 ++ c :: v, (stofFraction r).2.2) := by
  have hd : Char.isDigit c = false := by
    rcases hc with rfl | rfl <;> decide
  have hdot : c ≠ '.' := by
    rcases hc with rfl | rfl <;> decide
  cases r with
  | nil => simp only [List.nil_append, stofFraction, hdot, if_false]
  | cons x r =>
    simp only [List.cons_append, stofFraction]
    by_cases h : x = '.'
    · simp only [h, if_true]
      rw [takeWhile_append_stop Char.isDigit c v hd, dropWhile_append_stop Char.isDigit c v hd]
    · simp only [h, if_false, List.cons_append]

theorem stofDecimal_append (c : Char) (v : List Char) (hc : c = '(' ∨ c = '*')
    (w : List Char) : stofDecimal (w ++ c :: v) = stofDecimal w := by
  have hd : Char.isDigit c = false := by
    rcases hc with rfl | rfl <;> decide
  unfold stofDecimal
  simp only [takeWhile_append_stop Char.isDigit c v hd, dropWhile_append_stop Char.isDigit c v hd,
    stofFraction_append c v hc, stofExponent_append c v hc]

theorem stofDecimal_local : StofLocal stofDecimal := by
  intro d u v c _ hc
  rw [← List.cons_append]
  exact stofDecimal_append c v hc (d :: u)

theorem length_takeWhile_add_dropWhile (p : Char → Bool) (s : List Char) :
    (s.takeWhile p).length + (s.dropWhile p).length = s.length := by
  rw [← List.length_append, List.takeWhile_append_dropWhile]

theorem stofFraction_length (r : List Char) :
    (stofFraction r).1.length + (stofFraction r).2.1.length + (stofFraction r).2.2 =
      r.length := by
  cases r with
  | nil => rfl
  | cons x r =>
    simp only [stofFraction]
    by_cases h : x = '.'
    · simp only [h, if_true, List.length_cons]
      rw [length_takeWhile_add_dropWhile]
    · simp only [h, if_false, List.length_cons, List.length_nil]
      omega

theorem stofExponentDigits_le (negative : Bool) (used : Nat) (ds : List Char) (e : Int)
    (k : Nat) (h : stofExponentDigits negative used ds = some (e, k)) :
    k ≤ used + ds.length := by
  have hle := length_takeWhile_add_dropWhile Char.isDigit ds
  unfold stofExponentDigits at h
  split_ifs at h
  · cases h
    omega
  · cases h
    omega

theorem stofExponent_le (r : List Char) (e : Int) (k : Nat)
    (h : stofExponent r = some (e, k)) : k ≤ r.length := by
  cases r with
  | nil => simp [stofExponent] at h
  | cons x rest =>
    simp only [stofExponent] at h
    split_ifs at h
    cases rest with
    | nil => simp at h
    | cons sign ds =>
      simp only at h
      split_ifs at h
      · have := stofExponentDigits_le _ _ _ _ _ h
        simp only [List.length_cons]
        omega
      · have := stofExponentDigits_le _ _ _ _ _ h
        simp only [List.length_cons]
        omega
      · have := stofExponentDigits_le _ _ _ _ _ h
        simp only [List.length_cons] at this ⊢
        omega

theorem stofDecimal_bounded : StofBounded stofDecimal := by
  intro s val offset h
  have h1 := length_takeWhile_add_dropWhile Char.isDigit s
  have h2 := stofFraction_length (s.dropWhile Char.isDigit)
  unfold stofDecimal at h
  simp only at h
  split_ifs at h
  split at h
  · cases h
    omega
  · rename_i e k hk
    cases h
    have := stofExponent_le _ _ _ hk
    omega

/-- C7: implicit multiplication.  For a `std::stof` that is local and bounded,
and a prefix `s` on which `tokenize` succeeds with a last token of type `NUMBER`
or `RPAR`, `tokenize` returns a sequence on `s(t` exactly when it returns the
same sequence on `s*(t`, and that sequence continues the tokens of `s` with
`Operator('*')` and `LeftParen`.  With the decimal model, `2(3+4)` tokenizes
like `2*(3+4)` and evaluates to `14`, and `(3+4)(2+1)` evaluates to `21`. -/
theorem tokenize_implicit_multiplication (stof : List Char → Option (ℚ × Nat))
    (pow : ℚ → ℚ → ℚ) (junk : Token) (hloc : StofLocal stof) (hb : StofBounded stof)
    (s t : List Char) (toks : List Token) (x : Token)
    (hs : tokenize stof junk s = Except.ok toks) (hx : toks.getLast? = some x)
    (hty : x.type = TokenType.NUMBER ∨ x.type = TokenType.RPAR) :
    (∀ r, tokenize stof junk (s ++ '(' :: t) = Except.ok r ↔
        tokenize stof junk (s ++ '*' :: '(' :: t) = Except.ok r) ∧
      (∀ r, tokenize stof junk (s ++ '(' :: t) = Except.ok r →
        ∃ more, r = toks ++ [Token.operator '*', Token.ofType TokenType.LPAR] ++ more) ∧
      tokenize stofDecimal junk ['2', '(', '3', '+', '4', ')'] =
        tokenize stofDecimal junk ['2', '*', '(', '3', '+', '4', ')'] ∧
      pipeline stofDecimal pow junk ['2', '(', '3', '+', '4', ')'] = Except.ok 14 ∧
      pipeline stofDecimal pow junk ['(', '3', '+', '4', ')', '(', '2', '+', '1', ')'] =
        Except.ok 21 := by
  obtain ⟨h1, h2⟩ :=
    tokenizeLoop_implicit_multiplication stof junk hloc hb s t toks x hs hx hty
  refine ⟨h1, h2, ?_, ?_, ?_⟩
  · simp [tokenize, tokenizeLoop, tokenizeStep, unaryContext, last, isNumberStart,
      isOperatorChar, stofDecimal, stofFraction, stofExponent, stofExponentDigits, digitsValue,
      Token.number, Token.operator, Token.ofType]
  · simp [pipeline, tokenize, tokenizeLoop, tokenizeStep, unaryContext, last, isNumberStart,
      isOperatorChar, stofDecimal, stofFraction, stofExponent, stofExponentDigits, digitsValue,
      Token.number, Token.operator, Token.ofType, infix_to_postfix, postfixLoop, popOperators,
      popUntilLPar, drainStack, strchr, precedence, evaluate_postfix, evalLoop, applyOperator]
    norm_num
  · simp [pipeline, tokenize, tokenizeLoop, tokenizeStep, unaryContext, last, isNumberStart,
      isOperatorChar, stofDecimal, stofFraction, stofExponent, stofExponentDigits, digitsValue,
      Token.number, Token.operator, Token.ofType, infix_to_postfix, postfixLoop, popOperators,
      popUntilLPar, drainStack, strchr, precedence, evaluate_postfix, evalLoop, applyOperator]
    norm_num

/-- Witness for `tokenize_implicit_multiplication`: the decimal model of
`std::stof`, the prefix `2` and the rest `3+4)`. -/
theorem tokenize_implicit_multiplication_witness :
    StofLocal stofDecimal ∧ StofBounded stofDecimal ∧
      tokenize stofDecimal (Token.number 0) ['2'] = Except.ok [Token.number 2] ∧
      (∀ r, tokenize stofDecimal (Token.number 0) (['2'] ++ '(' :: ['3', '+', '4', ')']) =
          Except.ok r ↔
        tokenize stofDecimal (Token.number 0) (['2'] ++ '*' :: '(' :: ['3', '+', '4', ')']) =
          Except.ok r) :=
  have hs : tokenize stofDecimal (Token.number 0) ['2'] = Except.ok [Token.number 2] := by
    simp [tokenize, tokenizeLoop, tokenizeStep, unaryContext, last, isNumberStart,
      isOperatorChar, stofDecimal, stofFraction, stofExponent, stofExponentDigits, digitsValue,
      Token.number, Token.operator, Token.ofType]
  ⟨stofDecimal_local, stofDecimal_bounded, hs,
    (tokenize_implicit_multiplication stofDecimal (fun a _ => a) (Token.number 0)
      stofDecimal_local stofDecimal_bounded ['2'] ['3', '+', '4', ')'] [Token.number 2]
      (Token.number 2) hs rfl (Or.inl rfl)).1⟩

/-! ## Unary minus and parenthesised groups -/

theorem postfixLoop_nil (out stack : List Token) :
    postfixLoop [] out stack = drainStack stack out := rfl

theorem postfixLoop_cons (token : Token) (rest out stack : List Token) :
    postfixLoop (token :: rest) out stack =
      match token.type with
      | TokenType.NUMBER => postfixLoop rest (out ++ [token]) stack
      | TokenType.OPERATOR =>
        postfixLoop rest (popOperators token.op stack out).2
          (token :: (popOperators token.op stack out).1)
      | TokenType.UNARY_MINUS =>
        postfixLoop rest (out ++ [Token.number (-1)]) (Token.operator '*' :: stack)
      | TokenType.LPAR => postfixLoop rest out (token :: stack)
      | TokenType.RPAR =>
        match popUntilLPar stack out with
        | ([], _) => Except.error Err.mismatchedParenthesis
        | (_ :: stack', out') => postfixLoop rest out' stack' := rfl


theorem popOperators_cons (op : Char) (t : Token) (stack out : List Token) :
    popOperators op (t :: stack) out =
      if t.type ≠ TokenType.LPAR then
        if strchr precedence t.op ≤ strchr precedence op then
          popOperators op stack (out ++ [t])
        else (t :: stack, out)
      else (t :: stack, out) := rfl

theorem popUntilLPar_cons (t : Token) (stack out : List Token) :
    popUntilLPar (t :: stack) out =
      if t.type ≠ TokenType.LPAR then popUntilLPar stack (out ++ [t])
      else (t :: stack, out) := rfl

/-- Below an `LPAR` the stack is not touched by the `OPERATOR` case. -/
theorem popOperators_frame (op : Char) (lp : Token) (hlp : lp.type = TokenType.LPAR)
    (base pre : List Token) (stack : List Token) : ∀ out : List Token,
    popOperators op (stack ++ lp :: base) (pre ++ out) =
      ((popOperators op stack out).1 ++ lp :: base, pre ++ (popOperators op stack out).2) := by
  induction stack with
  | nil =>
    intro out
    simp [popOperators, hlp]
  | cons t stack ih =>
    intro out
    rw [List.cons_append, popOperators_cons, popOperators_cons]
    by_cases h1 : t.type ≠ TokenType.LPAR
    · by_cases h2 : strchr precedence t.op ≤ strchr precedence op
      · rw [if_pos h1, if_pos h2, if_pos h1, if_pos h2, List.append_assoc, ih]
      · rw [if_pos h1, if_neg h2, if_pos h1, if_neg h2]
        rfl
    · rw [if_neg h1, if_neg h1]
      rfl

/-- Below an `LPAR` the stack is not touched by the `RPAR` case. -/
theorem popUntilLPar_frame (lp : Token) (hlp : lp.type = TokenType.LPAR)
    (base pre : List Token) (stack : List Token) : ∀ out : List Token,
    popUntilLPar (stack ++ lp :: base) (pre ++ out) =
      ((popUntilLPar stack out).1 ++ lp :: base, pre ++ (popUntilLPar stack out).2) := by
  induction stack with
  | nil =>
    intro out
    simp [popUntilLPar, hlp]
  | cons t stack ih =>
    intro out
    rw [List.cons_append, popUntilLPar_cons, popUntilLPar_cons]
    by_cases h1 : t.type ≠ TokenType.LPAR
    · rw [if_pos h1, if_pos h1, List.append_assoc, ih]
    · rw [if_neg h1, if_neg h1]
      rfl

/-- When the final loop succeeds the stack holds no `LPAR`, so the `RPAR` loop
empties it with the same output. -/
theorem popUntilLPar_of_drainStack (stack : List Token) : ∀ out p : List Token,
    drainStack stack out = Except.ok p → popUntilLPar stack out = ([], p) := by
  induction stack with
  | nil =>
    intro out p h
    simp only [drainStack] at h
    cases h
    rfl
  | cons t stack ih =>
    intro out p h
    simp only [drainStack] at h
    by_cases h1 : t.type = TokenType.LPAR
    · rw [if_pos h1] at h
      cases h
    · rw [if_neg h1] at h
      simp only [popUntilLPar]
      rw [if_pos h1]
      exact ih _ _ h

/-- A group in parentheses: when `ts` alone converts to `p` from the state
`(out, stack)`, then `ts` followed by an `RPAR`, run above an `LPAR`, appends `p`
to the output, removes that `LPAR` and continues with the rest. -/
theorem postfixLoop_group (lp rp : Token) (hlp : lp.type = TokenType.LPAR)
    (hrp : rp.type = TokenType.RPAR) (rest base pre : List Token) (ts : List Token) :
    ∀ out stack p : List Token, postfixLoop ts out stack = Except.ok p →
      postfixLoop (ts ++ rp :: rest) (pre ++ out) (stack ++ lp :: base) =
        postfixLoop rest (pre ++ p) base := by
  induction ts with
  | nil =>
    intro out stack p h
    rw [postfixLoop_nil] at h
    rw [List.nil_append, postfixLoop_cons, hrp]
    simp only
    rw [popUntilLPar_frame lp hlp, popUntilLPar_of_drainStack stack out p h]
    simp only [List.nil_append]
  | cons t ts ih =>
    intro out stack p h
    rw [postfixLoop_cons] at h
    rw [List.cons_append, postfixLoop_cons]
    cases hty : t.type
    case NUMBER =>
      rw [hty] at h
      simp only at h ⊢
      rw [List.append_assoc]
      exact ih _ _ _ h
    case OPERATOR =>
      rw [hty] at h
      simp only at h ⊢
      rw [popOperators_frame t.op lp hlp]
      simp only
      rw [← List.cons_append]
      exact ih _ _ _ h
    case UNARY_MINUS =>
      rw [hty] at h
      simp only at h ⊢
      rw [List.append_assoc, ← List.cons_append]
      exact ih _ _ _ h
    case LPAR =>
      rw [hty] at h
      simp only at h ⊢
      rw [← List.cons_append]
      exact ih _ _ _ h
    case RPAR =>
      rw [hty] at h
      simp only at h ⊢
      rw [popUntilLPar_frame lp hlp]
      rcases hp : popUntilLPar stack out with ⟨s', o'⟩
      rw [hp] at h
      cases s' with
      | nil => simp only at h; cases h
      | cons x s' =>
        simp only [List.cons_append] at h ⊢
        exact ih _ _ _ h

/-- C8: unary minus in front of a parenthesised group.  When `ts` converts to
`p`, the sequence `UnaryMinus ( ts )` converts to `Number(-1)`, then `p`, then
`Operator('*')`; the pipeline returns `30` on `-(5)(-3)(2)` and `15` on
`-(5)*-(3)`. -/
theorem infix_to_postfix_unary_minus_group (pow : ℚ → ℚ → ℚ) (junk : Token)
    (ts p : List Token)
    (h : infix_to_postfix ts = Except.ok p) :
    infix_to_postfix ([Token.ofType TokenType.UNARY_MINUS, Token.ofType TokenType.LPAR] ++ ts ++
        [Token.ofType TokenType.RPAR]) =
      Except.ok ([Token.number (-1)] ++ p ++ [Token.operator '*']) ∧
    pipeline stofDecimal pow junk
      ['-', '(', '5', ')', '(', '-', '3', ')', '(', '2', ')'] = Except.ok 30 ∧
    pipeline stofDecimal pow junk
      ['-', '(', '5', ')', '*', '-', '(', '3', ')'] = Except.ok 15 := by
  refine ⟨?_, ?_, ?_⟩
  · unfold infix_to_postfix at h ⊢
    have hg := postfixLoop_group (Token.ofType TokenType.LPAR) (Token.ofType TokenType.RPAR)
      rfl rfl [] [Token.operator '*'] [Token.number (-1)] ts [] [] p h
    simp only [List.append_nil, List.nil_append] at hg
    simp only [List.cons_append, List.nil_append, List.append_assoc]
    rw [postfixLoop_cons]
    simp only [Token.ofType]
    rw [postfixLoop_cons]
    simp only
    simp only [Token.ofType] at hg
    simp only [List.nil_append]
    rw [hg]
    simp [postfixLoop, drainStack, Token.operator]
  · simp [pipeline, tokenize, tokenizeLoop, tokenizeStep, unaryContext, last, isNumberStart,
      isOperatorChar, stofDecimal, stofFraction, stofExponent, stofExponentDigits, digitsValue,
      Token.number, Token.operator, Token.ofType, infix_to_postfix, postfixLoop, popOperators,
      popUntilLPar, drainStack, strchr, precedence, evaluate_postfix, evalLoop, applyOperator]
    norm_num
  · simp [pipeline, tokenize, tokenizeLoop, tokenizeStep, unaryContext, last, isNumberStart,
      isOperatorChar, stofDecimal, stofFraction, stofExponent, stofExponentDigits, digitsValue,
      Token.number, Token.operator, Token.ofType, infix_to_postfix, postfixLoop, popOperators,
      popUntilLPar, drainStack, strchr, precedence, evaluate_postfix, evalLoop, applyOperator]
    norm_num

/-- Witness for `infix_to_postfix_unary_minus_group` on the group `-(5)`. -/
theorem infix_to_postfix_unary_minus_group_witness :
    infix_to_postfix [Token.number 5] = Except.ok [Token.number 5] ∧
      infix_to_postfix ([Token.ofType TokenType.UNARY_MINUS, Token.ofType TokenType.LPAR] ++
          [Token.number 5] ++ [Token.ofType TokenType.RPAR]) =
        Except.ok ([Token.number (-1)] ++ [Token.number 5] ++ [Token.operator '*']) :=
  have h : infix_to_postfix [Token.number 5] = Except.ok [Token.number 5] := by
    simp [ infix_to_postfix, postfixLoop, drainStack, Token.number]
  ⟨h, ( infix_to_postfix_unary_minus_group (fun a _ => a) (Token.number 0)
    [Token.number 5] [Token.number 5] h).1⟩

/-! ## Well-formed postfix -/

theorem depthAfter_nil : depthAfter [] = 0 := rfl

theorem depthAfter_cons (t : Token) (ts : List Token) :
    depthAfter (t :: ts) =
      (if t.type = TokenType.NUMBER then 1 else 0) -
        (if t.type = TokenType.OPERATOR then 1 else 0) + depthAfter ts := by
  unfold depthAfter
  rw [countType_cons, countType_cons]
  split_ifs <;> push_cast <;> ring

theorem postfixOk_iff (ts : List Token) : ∀ d : Nat,
    postfixOk d ts = true ↔
      (∀ (k : Nat) (t : Token), ts[k]? = some t → t.type = TokenType.OPERATOR →
          2 ≤ (d : Int) + depthAfter (ts.take k)) ∧
        (d : Int) + depthAfter ts = 1 := by
  induction ts with
  | nil =>
    intro d
    simp only [postfixOk, decide_eq_true_eq, depthAfter_nil]
    constructor
    · intro h
      refine ⟨fun k t ht => ?_, by omega⟩
      simp at ht
    · rintro ⟨_, h⟩
      omega
  | cons t ts ih =>
    intro d
    rw [forall_nat_iff]
    simp only [List.getElem?_cons_zero, List.getElem?_cons_succ, List.take_zero,
      List.take_succ_cons, depthAfter_nil, depthAfter_cons, Option.some.injEq]
    cases hty : t.type
    case NUMBER =>
      simp only [postfixOk, hty, ih, reduceCtorEq, if_true, if_false]
      constructor
      · rintro ⟨h1, h2⟩
        refine ⟨⟨fun t' ht' hop => ?_, fun k t' ht' hop => ?_⟩, by omega⟩
        · subst ht'
          rw [hty] at hop
          cases hop
        · have := h1 k t' ht' hop
          omega
      · rintro ⟨⟨_, h1⟩, h2⟩
        refine ⟨fun k t' ht' hop => ?_, by omega⟩
        have := h1 k t' ht' hop
        omega
    case OPERATOR =>
      rcases d with _ | _ | d
      · simp only [postfixOk, hty, reduceCtorEq, if_true, if_false]
        constructor
        · intro h; cases h
        · rintro ⟨⟨h0, _⟩, _⟩
          have := h0 t rfl hty
          simp at this
      · simp only [postfixOk, hty, reduceCtorEq, if_true, if_false]
        constructor
        · intro h; cases h
        · rintro ⟨⟨h0, _⟩, _⟩
          have := h0 t rfl hty
          simp at this
      · simp only [postfixOk, hty, ih, reduceCtorEq, if_true, if_false]
        constructor
        · rintro ⟨h1, h2⟩
          refine ⟨⟨fun t' _ _ => by push_cast; omega, fun k t' ht' hop => ?_⟩,
            by push_cast at h2 ⊢; omega⟩
          have := h1 k t' ht' hop
          push_cast at this ⊢
          omega
        · rintro ⟨⟨_, h1⟩, h2⟩
          refine ⟨fun k t' ht' hop => ?_, by push_cast at h2 ⊢; omega⟩
          have := h1 k t' ht' hop
          push_cast at this ⊢
          omega
    all_goals
      simp only [postfixOk, hty, ih, reduceCtorEq, if_true, if_false]
      constructor
      · rintro ⟨h1, h2⟩
        refine ⟨⟨fun t' ht' hop => ?_, fun k t' ht' hop => ?_⟩, by omega⟩
        · subst ht'
          rw [hty] at hop
          cases hop
        · have := h1 k t' ht' hop
          omega
      · rintro ⟨⟨_, h1⟩, h2⟩
        refine ⟨fun k t' ht' hop => ?_, by omega⟩
        have := h1 k t' ht' hop
        omega

theorem postfixOk_zero_iff (ts : List Token) : postfixOk 0 ts = true ↔ WellFormedPostfix ts := by
  rw [postfixOk_iff]
  unfold WellFormedPostfix
  simp only [Nat.cast_zero, zero_add]

theorem applyOperator_plus_minus_times (pow : ℚ → ℚ → ℚ) (op : Char) (l r : ℚ)
    (h : op = '+' ∨ op = '-' ∨ op = '*') : ∃ v, applyOperator pow op l r = Except.ok v := by
  rcases h with rfl | rfl | rfl <;> simp [applyOperator]

theorem evalLoop_postfixOk (pow : ℚ → ℚ → ℚ) (ts : List Token) :
    PlusMinusTimesOnly ts → ∀ stack : List ℚ,
      (postfixOk stack.length ts = true → ∃ v, evalLoop pow ts stack = Except.ok v) ∧
        (postfixOk stack.length ts = false →
          evalLoop pow ts stack = Except.error Err.invalidExpression) := by
  induction ts with
  | nil =>
    intro _ stack
    rcases stack with _ | ⟨v, _ | ⟨w, stack⟩⟩ <;> simp [postfixOk, evalLoop]
  | cons t ts ih =>
    intro hp stack
    have hp' : PlusMinusTimesOnly ts := fun t' ht' => hp t' (List.mem_cons_of_mem _ ht')
    have ht := hp t (List.mem_cons_self _ _)
    rcases ht with hty | ⟨hty, hop⟩
    · have := ih hp' (t.value :: stack)
      simp only [List.length_cons] at this
      simp only [postfixOk, evalLoop, hty, reduceCtorEq, if_true, if_false]
      exact this
    · rcases stack with _ | ⟨r, _ | ⟨l, stack⟩⟩
      · simp [postfixOk, evalLoop, hty]
      · simp [postfixOk, evalLoop, hty]
      · obtain ⟨v, hv⟩ := applyOperator_plus_minus_times pow t.op l r hop
        have := ih hp' (v :: stack)
        simp only [List.length_cons] at this
        simp only [postfixOk, evalLoop, hty, hv, List.length_cons, if_true]
        exact this

/-- C9: on a sequence of `NUMBER` tokens and `OPERATOR` tokens with symbols among
`+ - *`, `evaluate_postfix` returns a value exactly when the sequence is
well-formed postfix, and otherwise throws "Invalid expression". -/
theorem evaluate_postfix_wellFormed_iff (pow : ℚ → ℚ → ℚ) (ts : List Token)
    (h : PlusMinusTimesOnly ts) :
    ((∃ v, evaluate_postfix pow ts = Except.ok v) ↔ WellFormedPostfix ts) ∧
      ( evaluate_postfix pow ts = Except.error Err.invalidExpression ↔
        ¬ WellFormedPostfix ts) := by
  have hl := evalLoop_postfixOk pow ts h []
  simp only [List.length_nil] at hl
  rw [← postfixOk_zero_iff]
  unfold evaluate_postfix
  cases hb : postfixOk 0 ts
  · rw [hl.2 hb]
    simp
  · obtain ⟨v, hv⟩ := hl.1 hb
    rw [hv]
    simp

/-- Witness for `evaluate_postfix_wellFormed_iff` on the postfix sequence
`2 3 +`. -/
theorem evaluate_postfix_wellFormed_iff_witness :
    PlusMinusTimesOnly [Token.number 2, Token.number 3, Token.operator '+'] ∧
      ((∃ v, evaluate_postfix (fun a _ => a)
          [Token.number 2, Token.number 3, Token.operator '+'] = Except.ok v) ↔
        WellFormedPostfix [Token.number 2, Token.number 3, Token.operator '+']) :=
  have h : PlusMinusTimesOnly [Token.number 2, Token.number 3, Token.operator '+'] := by
    intro t ht
    simp only [List.mem_cons, List.mem_singleton, List.not_mem_nil, or_false] at ht
    rcases ht with rfl | rfl | rfl <;> simp [Token.number, Token.operator]
  ⟨h, ( evaluate_postfix_wellFormed_iff (fun a _ => a)
    [Token.number 2, Token.number 3, Token.operator '+'] h).1⟩

/-! ## Division by zero -/

theorem evalLoop_cons (pow : ℚ → ℚ → ℚ) (token : Token) (rest : List Token) (stack : List ℚ) :
    evalLoop pow (token :: rest) stack =
      if token.type = TokenType.OPERATOR then
        match stack with
        | val_r :: val_l :: stack' =>
          match applyOperator pow token.op val_l val_r with
          | Except.error e => Except.error e
          | Except.ok out => evalLoop pow rest (out :: stack')
        | _ => Except.error Err.invalidExpression
      else if token.type = TokenType.NUMBER then evalLoop pow rest (token.value :: stack)
      else evalLoop pow rest stack := by
  rcases stack with _ | ⟨r, _ | ⟨l, stack⟩⟩ <;> rfl

/-! ## The tokens of the postfix sequence -/

theorem countType_append (ty : TokenType) (a b : List Token) :
    countType ty (a ++ b) = countType ty a + countType ty b := by
  unfold countType
  rw [List.filter_append, List.length_append]

theorem countType_singleton (ty : TokenType) (t : Token) :
    countType ty [t] = if t.type = ty then 1 else 0 := by
  rw [countType_cons, countType_nil, Nat.add_zero]

theorem popOperators_counts (op : Char) (stack : List Token) : ∀ out : List Token,
    (∀ t ∈ out, t.type = TokenType.NUMBER ∨ t.type = TokenType.OPERATOR) →
    (∀ t ∈ stack, t.type = TokenType.OPERATOR ∨ t.type = TokenType.LPAR) →
    (∀ t ∈ (popOperators op stack out).2, t.type = TokenType.NUMBER ∨ t.type = TokenType.OPERATOR) ∧
    (∀ t ∈ (popOperators op stack out).1, t.type = TokenType.OPERATOR ∨ t.type = TokenType.LPAR) ∧
    countType TokenType.NUMBER (popOperators op stack out).2 = countType TokenType.NUMBER out ∧
    countType TokenType.OPERATOR (popOperators op stack out).2 +
        countType TokenType.OPERATOR (popOperators op stack out).1 =
      countType TokenType.OPERATOR out + countType TokenType.OPERATOR stack := by
  induction stack with
  | nil =>
    intro out ho hs
    exact ⟨ho, hs, rfl, rfl⟩
  | cons t stack ih =>
    intro out ho hs
    rw [popOperators_cons]
    have ht := hs t (List.mem_cons_self _ _)
    have hs' : ∀ t ∈ stack, t.type = TokenType.OPERATOR ∨ t.type = TokenType.LPAR :=
      fun x hx => hs x (List.mem_cons_of_mem _ hx)
    by_cases h1 : t.type ≠ TokenType.LPAR
    · have hop : t.type = TokenType.OPERATOR := by
        rcases ht with h | h
        · exact h
        · exact absurd h h1
      by_cases h2 : strchr precedence t.op ≤ strchr precedence op
      · rw [if_pos h1, if_pos h2]
        have ho' : ∀ x ∈ out ++ [t], x.type = TokenType.NUMBER ∨ x.type = TokenType.OPERATOR := by
          intro x hx
          rcases List.mem_append.mp hx with h | h
          · exact ho x h
          · rw [List.mem_singleton] at h
            subst h
            exact Or.inr hop
        obtain ⟨a, b, c, d⟩ := ih (out ++ [t]) ho' hs'
        refine ⟨a, b, ?_, ?_⟩
        · rw [c, countType_append, countType_singleton, hop, if_neg (by decide), Nat.add_zero]
        · rw [d, countType_append, countType_singleton, countType_cons, hop, if_pos rfl]
          omega
      · rw [if_pos h1, if_neg h2]
        exact ⟨ho, hs, rfl, rfl⟩
    · rw [if_neg h1]
      exact ⟨ho, hs, rfl, rfl⟩

theorem popUntilLPar_counts (stack : List Token) : ∀ out : List Token,
    (∀ t ∈ out, t.type = TokenType.NUMBER ∨ t.type = TokenType.OPERATOR) →
    (∀ t ∈ stack, t.type = TokenType.OPERATOR ∨ t.type = TokenType.LPAR) →
    (∀ t ∈ (popUntilLPar stack out).2, t.type = TokenType.NUMBER ∨ t.type = TokenType.OPERATOR) ∧
    (∀ t ∈ (popUntilLPar stack out).1, t.type = TokenType.OPERATOR ∨ t.type = TokenType.LPAR) ∧
    (∀ x rest, (popUntilLPar stack out).1 = x :: rest → x.type = TokenType.LPAR) ∧
    countType TokenType.NUMBER (popUntilLPar stack out).2 = countType TokenType.NUMBER out ∧
    countType TokenType.OPERATOR (popUntilLPar stack out).2 +
        countType TokenType.OPERATOR (popUntilLPar stack out).1 =
      countType TokenType.OPERATOR out + countType TokenType.OPERATOR stack := by
  induction stack with
  | nil =>
    intro out ho hs
    exact ⟨ho, hs, fun x rest h => (by cases h), rfl, rfl⟩
  | cons t stack ih =>
    intro out ho hs
    rw [popUntilLPar_cons]
    have ht := hs t (List.mem_cons_self _ _)
    have hs' : ∀ t ∈ stack, t.type = TokenType.OPERATOR ∨ t.type = TokenType.LPAR :=
      fun x hx => hs x (List.mem_cons_of_mem _ hx)
    by_cases h1 : t.type ≠ TokenType.LPAR
    · have hop : t.type = TokenType.OPERATOR := by
        rcases ht with h | h
        · exact h
        · exact absurd h h1
      rw [if_pos h1]
      have ho' : ∀ x ∈ out ++ [t], x.type = TokenType.NUMBER ∨ x.type = TokenType.OPERATOR := by
        intro x hx
        rcases List.mem_append.mp hx with h | h
        · exact ho x h
        · rw [List.mem_singleton] at h
          subst h
          exact Or.inr hop
      obtain ⟨a, b, c, d, e⟩ := ih (out ++ [t]) ho' hs'
      refine ⟨a, b, c, ?_, ?_⟩
      · rw [d, countType_append, countType_singleton, hop, if_neg (by decide), Nat.add_zero]
      · rw [e, countType_append, countType_singleton, countType_cons, hop, if_pos rfl]
        omega
    · rw [if_neg h1]
      refine ⟨ho, hs, fun x rest h => ?_, rfl, rfl⟩
      cases h
      exact not_not.mp h1

theorem drainStack_counts (stack : List Token) : ∀ out p : List Token,
    drainStack stack out = Except.ok p →
    (∀ t ∈ out, t.type = TokenType.NUMBER ∨ t.type = TokenType.OPERATOR) →
    (∀ t ∈ stack, t.type = TokenType.OPERATOR ∨ t.type = TokenType.LPAR) →
    (∀ t ∈ p, t.type = TokenType.NUMBER ∨ t.type = TokenType.OPERATOR) ∧
    countType TokenType.NUMBER p = countType TokenType.NUMBER out ∧
    countType TokenType.OPERATOR p =
      countType TokenType.OPERATOR out + countType TokenType.OPERATOR stack := by
  induction stack with
  | nil =>
    intro out p h ho _
    simp only [drainStack] at h
    cases h
    exact ⟨ho, rfl, rfl⟩
  | cons t stack ih =>
    intro out p h ho hs
    simp only [drainStack] at h
    have ht := hs t (List.mem_cons_self _ _)
    have hs' : ∀ t ∈ stack, t.type = TokenType.OPERATOR ∨ t.type = TokenType.LPAR :=
      fun x hx => hs x (List.mem_cons_of_mem _ hx)
    by_cases h1 : t.type = TokenType.LPAR
    · rw [if_pos h1] at h
      cases h
    · rw [if_neg h1] at h
      have hop : t.type = TokenType.OPERATOR := by
        rcases ht with h | h
        · exact h
        · exact absurd h h1
      have ho' : ∀ x ∈ out ++ [t], x.type = TokenType.NUMBER ∨ x.type = TokenType.OPERATOR := by
        intro x hx
        rcases List.mem_append.mp hx with h | h
        · exact ho x h
        · rw [List.mem_singleton] at h
          subst h
          exact Or.inr hop
      obtain ⟨a, b, c⟩ := ih (out ++ [t]) p h ho' hs'
      refine ⟨a, ?_, ?_⟩
      · rw [b, countType_append, countType_singleton, hop, if_neg (by decide), Nat.add_zero]
      · rw [c, countType_append, countType_singleton, countType_cons, hop, if_pos rfl]
        omega

/-- The counts of the postfix sequence: it holds only `NUMBER` and `OPERATOR`
tokens, one `NUMBER` for each `NUMBER` and each `UNARY_MINUS` of the input, and
one `OPERATOR` for each `OPERATOR` and each `UNARY_MINUS`. -/
theorem postfixLoop_counts (ts : List Token) : ∀ out stack p : List Token,
    postfixLoop ts out stack = Except.ok p →
    (∀ t ∈ out, t.type = TokenType.NUMBER ∨ t.type = TokenType.OPERATOR) →
    (∀ t ∈ stack, t.type = TokenType.OPERATOR ∨ t.type = TokenType.LPAR) →
    (∀ t ∈ p, t.type = TokenType.NUMBER ∨ t.type = TokenType.OPERATOR) ∧
    countType TokenType.NUMBER p =
      countType TokenType.NUMBER out + countType TokenType.NUMBER ts +
        countType TokenType.UNARY_MINUS ts ∧
    countType TokenType.OPERATOR p =
      countType TokenType.OPERATOR out + countType TokenType.OPERATOR stack +
        countType TokenType.OPERATOR ts + countType TokenType.UNARY_MINUS ts := by
  induction ts with
  | nil =>
    intro out stack p h ho hs
    rw [postfixLoop_nil] at h
    obtain ⟨a, b, c⟩ := drainStack_counts stack out p h ho hs
    exact ⟨a, by rw [b]; simp [countType_nil], by rw [c]; simp [countType_nil]⟩
  | cons t ts ih =>
    intro out stack p h ho hs
    rw [postfixLoop_cons] at h
    have happ : ∀ x : Token, (x.type = TokenType.NUMBER ∨ x.type = TokenType.OPERATOR) →
        ∀ y ∈ out ++ [x], y.type = TokenType.NUMBER ∨ y.type = TokenType.OPERATOR := by
      intro x hx y hy
      rcases List.mem_append.mp hy with h | h
      · exact ho y h
      · rw [List.mem_singleton] at h
        subst h
        exact hx
    have hcons : ∀ x : Token, (x.type = TokenType.OPERATOR ∨ x.type = TokenType.LPAR) →
        ∀ s : List Token, (∀ y ∈ s, y.type = TokenType.OPERATOR ∨ y.type = TokenType.LPAR) →
        ∀ y ∈ x :: s, y.type = TokenType.OPERATOR ∨ y.type = TokenType.LPAR := by
      intro x hx s hs' y hy
      rcases List.mem_cons.mp hy with h | h
      · subst h
        exact hx
      · exact hs' y h
    simp only [countType_cons _ t ts]
    cases hty : t.type
    case NUMBER =>
      rw [hty] at h
      simp only at h
      obtain ⟨a, b, c⟩ := ih _ _ _ h (happ t (Or.inl hty)) hs
      refine ⟨a, ?_, ?_⟩
      · rw [b, countType_append, countType_singleton, hty]
        simp only [reduceCtorEq, if_true, if_false]
        omega
      · rw [c, countType_append, countType_singleton, hty]
        simp only [reduceCtorEq, if_true, if_false]
        omega
    case OPERATOR =>
      rw [hty] at h
      simp only at h
      obtain ⟨a1, a2, a3, a4⟩ := popOperators_counts t.op stack out ho hs
      obtain ⟨a, b, c⟩ := ih _ _ _ h a1 (hcons t (Or.inl hty) _ a2)
      refine ⟨a, ?_, ?_⟩
      · rw [b, a3]
        simp only [reduceCtorEq, if_true, if_false]
        omega
      · rw [c, countType_cons, hty]
        simp only [reduceCtorEq, if_true, if_false]
        omega
    case UNARY_MINUS =>
      rw [hty] at h
      simp only at h
      obtain ⟨a, b, c⟩ := ih _ _ _ h (happ (Token.number (-1)) (Or.inl rfl))
        (hcons (Token.operator '*') (Or.inl rfl) _ hs)
      refine ⟨a, ?_, ?_⟩
      · rw [b, countType_append, countType_singleton]
        simp only [Token.number, reduceCtorEq, if_true, if_false]
        omega
      · rw [c, countType_append, countType_singleton, countType_cons]
        simp only [Token.number, Token.operator, reduceCtorEq, if_true, if_false]
        omega
    case LPAR =>
      rw [hty] at h
      simp only at h
      obtain ⟨a, b, c⟩ := ih _ _ _ h ho (hcons t (Or.inr hty) _ hs)
      refine ⟨a, ?_, ?_⟩
      · rw [b]
        simp only [reduceCtorEq, if_true, if_false]
        omega
      · rw [c, countType_cons, hty]
        simp only [reduceCtorEq, if_true, if_false]
        omega
    case RPAR =>
      rw [hty] at h
      simp only at h
      obtain ⟨a1, a2, a3, a4, a5⟩ := popUntilLPar_counts stack out ho hs
      rcases hp : popUntilLPar stack out with ⟨s', o'⟩
      rw [hp] at h a1 a2 a3 a4 a5
      cases s' with
      | nil => simp only at h; cases h
      | cons x s' =>
        simp only at h a1 a2 a3 a4 a5
        have hx := a3 x s' rfl
        obtain ⟨a, b, c⟩ := ih _ _ _ h a1 (fun y hy => a2 y (List.mem_cons_of_mem _ hy))
        rw [countType_cons, hx, if_neg (by decide)] at a5
        refine ⟨a, ?_, ?_⟩
        · rw [b, a4]
          simp only [reduceCtorEq, if_true, if_false]
          omega
        · rw [c]
          simp only [reduceCtorEq, if_true, if_false]
          omega

theorem length_eq_counts (p : List Token)
    (h : ∀ t ∈ p, t.type = TokenType.NUMBER ∨ t.type = TokenType.OPERATOR) :
    p.length = countType TokenType.NUMBER p + countType TokenType.OPERATOR p := by
  induction p with
  | nil => rfl
  | cons t p ih =>
    rw [countType_cons, countType_cons, List.length_cons,
      ih (fun x hx => h x (List.mem_cons_of_mem _ hx))]
    rcases h t (List.mem_cons_self _ _) with ht | ht <;> rw [ht] <;>
      simp only [reduceCtorEq, if_true, if_false] <;> omega

/-- C11: when `infix_to_postfix` succeeds, the output holds only `NUMBER` and
`OPERATOR` tokens, and its length is the number of `NUMBER` tokens plus the
number of `OPERATOR` tokens plus twice the number of `UNARY_MINUS` tokens of the
input. -/
theorem infix_to_postfix_tokens (ts p : List Token)
    (h : infix_to_postfix ts = Except.ok p) :
    (∀ t ∈ p, t.type = TokenType.NUMBER ∨ t.type = TokenType.OPERATOR) ∧
      p.length = countType TokenType.NUMBER ts + countType TokenType.OPERATOR ts +
        2 * countType TokenType.UNARY_MINUS ts := by
  obtain ⟨a, b, c⟩ := postfixLoop_counts ts [] [] p h (fun t ht => by cases ht)
    (fun t ht => by cases ht)
  refine ⟨a, ?_⟩
  rw [length_eq_counts p a, b, c]
  simp only [countType_nil]
  omega

/-- Witness for `infix_to_postfix_tokens` on the tokens of `-(5)`. -/
theorem infix_to_postfix_tokens_witness :
    infix_to_postfix [Token.ofType TokenType.UNARY_MINUS, Token.ofType TokenType.LPAR,
        Token.number 5, Token.ofType TokenType.RPAR] =
      Except.ok [Token.number (-1), Token.number 5, Token.operator '*'] ∧
    [Token.number (-1), Token.number 5, Token.operator '*'].length =
      countType TokenType.NUMBER [Token.ofType TokenType.UNARY_MINUS,
          Token.ofType TokenType.LPAR, Token.number 5, Token.ofType TokenType.RPAR] +
        countType TokenType.OPERATOR [Token.ofType TokenType.UNARY_MINUS,
          Token.ofType TokenType.LPAR, Token.number 5, Token.ofType TokenType.RPAR] +
        2 * countType TokenType.UNARY_MINUS [Token.ofType TokenType.UNARY_MINUS,
          Token.ofType TokenType.LPAR, Token.number 5, Token.ofType TokenType.RPAR] :=
  have h : infix_to_postfix [Token.ofType TokenType.UNARY_MINUS, Token.ofType TokenType.LPAR,
      Token.number 5, Token.ofType TokenType.RPAR] =
      Except.ok [Token.number (-1), Token.number 5, Token.operator '*'] := by
    simp [ infix_to_postfix, postfixLoop, popUntilLPar, drainStack, Token.number, Token.operator,
      Token.ofType]
  ⟨h, ( infix_to_postfix_tokens _ _ h).2⟩

/-! ## A trailing operator -/

theorem chain_of_noNumberAfterRPar (tokens : List Token) (h : NoNumberAfterRPar tokens) :
    List.Chain' notRParNumber tokens := by
  rw [List.chain'_iff_get]
  intro i hi
  have h1 : i < tokens.length := by omega
  have h2 : i + 1 < tokens.length := by omega
  exact h i _ _ (List.getElem?_eq_getElem h1) (List.getElem?_eq_getElem h2)

theorem chain_notRParNumber_append_singleton (l : List Token) (x : Token)
    (h : List.Chain' notRParNumber (l ++ [x])) :
    ∀ y, l.getLast? = some y → notRParNumber y x := by
  rw [List.chain'_append] at h
  intro y hy
  exact h.2.2 y (by simpa using hy) x (by simp)

theorem depthAfter_append_singleton (l : List Token) (x : Token) :
    depthAfter (l ++ [x]) =
      depthAfter l + ((if x.type = TokenType.NUMBER then 1 else 0) -
        (if x.type = TokenType.OPERATOR then 1 else 0)) := by
  unfold depthAfter
  rw [countType_append, countType_append, countType_singleton, countType_singleton]
  split_ifs <;> push_cast <;> ring

theorem operandBalance_nil : OperandBalance [] := by
  refine ⟨?_, fun _ => ?_⟩ <;> simp [depthAfter_nil]

/-- A non-empty token list whose last token is neither a `NUMBER` nor an `RPAR`,
or an empty one, holds no more `NUMBER` than `OPERATOR` tokens. -/
theorem OperandBalance.le_zero_of_last (junk : Token) (tokens : List Token)
    (h : OperandBalance tokens)
    (hl : tokens = [] ∨ ((last junk tokens).type ≠ TokenType.NUMBER ∧
      (last junk tokens).type ≠ TokenType.RPAR)) : depthAfter tokens ≤ 0 := by
  rcases hl with rfl | hl
  · simp [depthAfter_nil]
  · apply h.2
    intro t ht
    rw [last_of_getLast? junk tokens t ht] at hl
    exact hl

theorem tokenizeStep_operandBalance (stof : List Char → Option (ℚ × Nat)) (junk : Token)
    (i : Nat) (tokens : List Token) (ch : Char) (cs : List Char) (skip : Nat)
    (tokens' : List Token)
    (h : tokenizeStep stof junk i tokens ch cs = Except.ok (skip, tokens'))
    (hc : List.Chain' notRParNumber tokens') (hi : i = 0 → tokens = [])
    (hb : OperandBalance tokens) : OperandBalance tokens' := by
  have hempty : tokens = [] ∨ tokens ≠ [] := by
    cases tokens with
    | nil => exact Or.inl rfl
    | cons _ _ => exact Or.inr (by simp)
  have hpush : ∀ x : Token, depthAfter (tokens ++ [x]) ≤ 1 →
      (x.type ≠ TokenType.NUMBER ∧ x.type ≠ TokenType.RPAR → depthAfter (tokens ++ [x]) ≤ 0) →
      OperandBalance (tokens ++ [x]) := by
    intro x h1 h2
    refine ⟨h1, fun hl => h2 (hl x (List.getLast?_concat _))⟩
  unfold tokenizeStep at h
  split_ifs at h with h1 h2 h3 h4 h5 h6 h7 h8 h9 h10 h11
  · cases h; exact hb
  · cases h
    have hle : depthAfter tokens ≤ 0 := by
      apply OperandBalance.le_zero_of_last junk tokens hb
      rcases hempty with he | hne
      · exact Or.inl he
      · right
        have hu := h2.1
        simp only [unaryContext, decide_eq_true_eq] at hu
        rcases hu with h0 | hop | hlp
        · exact absurd (hi h0) hne
        · rw [hop]; exact ⟨by decide, by decide⟩
        · rw [hlp]; exact ⟨by decide, by decide⟩
    have hd := depthAfter_append_singleton tokens (Token.ofType TokenType.UNARY_MINUS)
    simp only [Token.ofType, reduceCtorEq, if_false, sub_zero, add_zero] at hd
    apply hpush
    · simp only [Token.ofType]; omega
    · intro _; simp only [Token.ofType]; omega
  · split at h
    · cases h
    · rename_i val offset hst
      cases h
      have hle : depthAfter tokens ≤ 0 := by
        apply OperandBalance.le_zero_of_last junk tokens hb
        rcases hempty with he | hne
        · exact Or.inl he
        · right
          obtain ⟨y, hy⟩ : ∃ y, tokens.getLast? = some y := by
            cases hg : tokens.getLast? with
            | none => exact absurd (List.getLast?_eq_none_iff.mp hg) hne
            | some y => exact ⟨y, rfl⟩
          have hlen : 0 < tokens.length := List.length_pos.mpr hne
          have hr := chain_notRParNumber_append_singleton tokens (Token.number val) hc y hy
          rw [last_of_getLast? junk tokens y hy] at h4 ⊢
          refine ⟨fun hn => h4 ⟨hlen, hn⟩, fun hrp => hr ⟨hrp, rfl⟩⟩
      have hd := depthAfter_append_singleton tokens (Token.number val)
      simp only [Token.number, reduceCtorEq, if_true, if_false, sub_zero] at hd
      apply hpush
      · simp only [Token.number]; omega
      · intro hx; exact absurd rfl hx.1
  · cases h; exact hb
  · cases h
    have hd := depthAfter_append_singleton tokens (Token.operator ch)
    simp only [Token.operator, reduceCtorEq, if_true, if_false, zero_sub] at hd
    have := hb.1
    apply hpush
    · simp only [Token.operator]; omega
    · intro _; simp only [Token.operator]; omega
  · cases h
    have hd1 := depthAfter_append_singleton tokens (Token.operator '*')
    simp only [Token.operator, reduceCtorEq, if_true, if_false, zero_sub] at hd1
    have hd2 := depthAfter_append_singleton (tokens ++ [Token.operator '*'])
      (Token.ofType TokenType.LPAR)
    simp only [Token.ofType, Token.operator, reduceCtorEq, if_false, sub_zero, add_zero] at hd2
    have := hb.1
    refine ⟨?_, fun _ => ?_⟩
    · simp only [Token.ofType, Token.operator]; omega
    · simp only [Token.ofType, Token.operator]; omega
  · cases h
    have hle : depthAfter tokens ≤ 0 := by
      apply OperandBalance.le_zero_of_last junk tokens hb
      rcases hempty with he | hne
      · exact Or.inl he
      · right
        have hlen : 0 < tokens.length := List.length_pos.mpr hne
        exact ⟨fun hn => h9 ⟨hlen, Or.inr hn⟩, fun hrp => h9 ⟨hlen, Or.inl hrp⟩⟩
    have hd := depthAfter_append_singleton tokens (Token.ofType TokenType.LPAR)
    simp only [Token.ofType, reduceCtorEq, if_false, sub_zero, add_zero] at hd
    apply hpush
    · simp only [Token.ofType]; omega
    · intro _; simp only [Token.ofType]; omega
  · cases h
    have hd := depthAfter_append_singleton tokens (Token.ofType TokenType.RPAR)
    simp only [Token.ofType, reduceCtorEq, if_false, sub_zero, add_zero] at hd
    have := hb.1
    apply hpush
    · simp only [Token.ofType]; omega
    · intro hx; exact absurd rfl hx.2

theorem tokenizeLoop_operandBalance (stof : List Char → Option (ℚ × Nat)) (junk : Token)
    (cs : List Char) : ∀ (skip i : Nat) (tokens result : List Token),
    tokenizeLoop stof junk skip i tokens cs = Except.ok result →
      List.Chain' notRParNumber result → (i = 0 → tokens = []) → OperandBalance tokens →
      OperandBalance result := by
  induction cs with
  | nil =>
    intro skip i tokens result h _ _ hb
    simp only [tokenizeLoop] at h
    cases h
    exact hb
  | cons ch cs ih =>
    intro skip i tokens result h hc hi hb
    cases skip with
    | succ skip =>
      rw [tokenizeLoop_cons_succ] at h
      exact ih _ _ _ _ h hc (fun h0 => by omega) hb
    | zero =>
      rw [tokenizeLoop_cons_zero] at h
      split at h
      · cases h
      · rename_i sk tk hstep
        obtain ⟨more, hmore⟩ := tokenizeLoop_extends stof junk cs _ _ _ _ h
        have hctk : List.Chain' notRParNumber tk := by
          rw [hmore] at hc
          exact hc.left_of_append
        exact ih _ _ _ _ h hc (fun h0 => by omega)
          (tokenizeStep_operandBalance stof junk i tokens ch cs sk tk hstep hctk hi hb)

/-- A successful evaluation leaves exactly one value: the size of the stack
plus the depth of the tokens is `1`. -/
theorem evalLoop_ok_depth (pow : ℚ → ℚ → ℚ) (ts : List Token) : ∀ (stack : List ℚ) (v : ℚ),
    evalLoop pow ts stack = Except.ok v → (stack.length : Int) + depthAfter ts = 1 := by
  induction ts with
  | nil =>
    intro stack v h
    rcases stack with _ | ⟨w, _ | ⟨w', stack⟩⟩ <;> simp [evalLoop, depthAfter_nil] at h ⊢
  | cons t ts ih =>
    intro stack v h
    rw [evalLoop_cons] at h
    rw [depthAfter_cons]
    by_cases hty : t.type = TokenType.OPERATOR
    · rw [if_pos hty] at h
      rcases stack with _ | ⟨r, _ | ⟨l, stack⟩⟩
      · cases h
      · cases h
      · simp only at h
        cases ha : applyOperator pow t.op l r with
        | error e =>
          rw [ha] at h
          cases h
        | ok w =>
          rw [ha] at h
          have := ih _ _ h
          simp only [List.length_cons, hty, reduceCtorEq, if_true, if_false] at this ⊢
          push_cast at this ⊢
          omega
    · rw [if_neg hty] at h
      by_cases hn : t.type = TokenType.NUMBER
      · rw [if_pos hn] at h
        have := ih _ _ h
        simp only [List.length_cons, hty, hn, if_true, if_false] at this ⊢
        push_cast at this ⊢
        omega
      · rw [if_neg hn] at h
        have := ih _ _ h
        simp only [hty, hn, if_false] at this ⊢
        omega

theorem noNumberAfterRPar_of_no_rpar (tokens : List Token)
    (h : ∀ t ∈ tokens, t.type ≠ TokenType.RPAR) : NoNumberAfterRPar tokens := by
  intro i a b ha _ hab
  exact h a (List.getElem?_mem ha) hab.1

/-- C12 (counterexample): on `(2)3+` the tokenizer returns `( 2 ) 3 +`, whose
last token is an `OPERATOR`, and the pipeline returns `5`. -/
theorem pipeline_trailing_operator_value :
    tokenize stofDecimal (Token.number 0) ['(', '2', ')', '3', '+'] =
      Except.ok [Token.ofType TokenType.LPAR, Token.number 2, Token.ofType TokenType.RPAR,
        Token.number 3, Token.operator '+'] ∧
    ([Token.ofType TokenType.LPAR, Token.number 2, Token.ofType TokenType.RPAR,
        Token.number 3, Token.operator '+'].getLast?.map Token.type) =
      some TokenType.OPERATOR ∧
    pipeline stofDecimal natPow (Token.number 0) ['(', '2', ')', '3', '+'] = Except.ok 5 := by
  refine ⟨?_, ?_, ?_⟩
  · simp [tokenize, tokenizeLoop, tokenizeStep, unaryContext, last, isNumberStart,
      isOperatorChar, stofDecimal, stofFraction, stofExponent, stofExponentDigits, digitsValue,
      Token.number, Token.operator, Token.ofType]
  · simp [Token.operator]
  · simp [pipeline, tokenize, tokenizeLoop, tokenizeStep, unaryContext, last, isNumberStart,
      isOperatorChar, stofDecimal, stofFraction, stofExponent, stofExponentDigits, digitsValue,
      Token.number, Token.operator, Token.ofType, infix_to_postfix, postfixLoop, popOperators,
      popUntilLPar, drainStack, strchr, precedence, evaluate_postfix, evalLoop, applyOperator]
    norm_num

/-- C12 (amended): when `tokenize` succeeds with a token sequence whose last
token is an `OPERATOR` and in which no `NUMBER` directly follows an `RPAR`, the
pipeline fails; on `4 - 5 /`, `6 * 7 +` and `8 / 9 -` it throws
"Invalid expression". -/
theorem pipeline_trailing_operator_fails (stof : List Char → Option (ℚ × Nat))
    (pow : ℚ → ℚ → ℚ) (junk : Token) (str : List Char) (toks : List Token)
    (h : tokenize stof junk str = Except.ok toks)
    (hl : ∃ t, toks.getLast? = some t ∧ t.type = TokenType.OPERATOR)
    (hadj : NoNumberAfterRPar toks) :
    (∃ e, pipeline stof pow junk str = Except.error e) ∧
    pipeline stofDecimal pow junk ['4', ' ', '-', ' ', '5', ' ', '/'] =
      Except.error Err.invalidExpression ∧
    pipeline stofDecimal pow junk ['6', ' ', '*', ' ', '7', ' ', '+'] =
      Except.error Err.invalidExpression ∧
    pipeline stofDecimal pow junk ['8', ' ', '/', ' ', '9', ' ', '-'] =
      Except.error Err.invalidExpression := by
  refine ⟨?_, ?_, ?_, ?_⟩
  · have hb : OperandBalance toks :=
      tokenizeLoop_operandBalance stof junk str 0 0 [] toks h
        (chain_of_noNumberAfterRPar toks hadj) (fun _ => rfl) operandBalance_nil
    obtain ⟨t, ht, hty⟩ := hl
    have hle : depthAfter toks ≤ 0 := by
      apply hb.2
      intro t' ht'
      rw [ht] at ht'
      cases ht'
      rw [hty]
      exact ⟨by decide, by decide⟩
    unfold pipeline
    rw [h]
    simp only
    cases hp : infix_to_postfix toks with
    | error e => exact ⟨e, rfl⟩
    | ok p =>
      simp only
      obtain ⟨_, hn, ho⟩ := postfixLoop_counts toks [] [] p hp (fun t ht => by cases ht)
        (fun t ht => by cases ht)
      cases he : evaluate_postfix pow p with
      | error e => exact ⟨e, rfl⟩
      | ok v =>
        exfalso
        have hd := evalLoop_ok_depth pow p [] v he
        simp only [List.length_nil, Nat.cast_zero, zero_add] at hd
        unfold depthAfter at hd hle
        rw [hn, ho] at hd
        simp only [countType_nil] at hd
        push_cast at hd
        omega
  · simp [pipeline, tokenize, tokenizeLoop, tokenizeStep, unaryContext, last, isNumberStart,
      isOperatorChar, stofDecimal, stofFraction, stofExponent, stofExponentDigits, digitsValue,
      Token.number, Token.operator, Token.ofType, infix_to_postfix, postfixLoop, popOperators,
      popUntilLPar, drainStack, strchr, precedence, evaluate_postfix, evalLoop, applyOperator,
      equals, EPSILON]
    norm_num
  · simp [pipeline, tokenize, tokenizeLoop, tokenizeStep, unaryContext, last, isNumberStart,
      isOperatorChar, stofDecimal, stofFraction, stofExponent, stofExponentDigits, digitsValue,
      Token.number, Token.operator, Token.ofType, infix_to_postfix, postfixLoop, popOperators,
      popUntilLPar, drainStack, strchr, precedence, evaluate_postfix, evalLoop, applyOperator,
      equals, EPSILON]
  · simp [pipeline, tokenize, tokenizeLoop, tokenizeStep, unaryContext, last, isNumberStart,
      isOperatorChar, stofDecimal, stofFraction, stofExponent, stofExponentDigits, digitsValue,
      Token.number, Token.operator, Token.ofType, infix_to_postfix, postfixLoop, popOperators,
      popUntilLPar, drainStack, strchr, precedence, evaluate_postfix, evalLoop, applyOperator,
      equals, EPSILON]
    norm_num

/-- Witness for `pipeline_trailing_operator_fails` on the input `6 * 7 +`. -/
theorem pipeline_trailing_operator_fails_witness :
    tokenize stofDecimal (Token.number 0) ['6', ' ', '*', ' ', '7', ' ', '+'] =
      Except.ok [Token.number 6, Token.operator '*', Token.number 7, Token.operator '+'] ∧
    NoNumberAfterRPar [Token.number 6, Token.operator '*', Token.number 7,
      Token.operator '+'] ∧
    ∃ e, pipeline stofDecimal natPow (Token.number 0) ['6', ' ', '*', ' ', '7', ' ', '+'] =
      Except.error e :=
  have h : tokenize stofDecimal (Token.number 0) ['6', ' ', '*', ' ', '7', ' ', '+'] =
      Except.ok [Token.number 6, Token.operator '*', Token.number 7, Token.operator '+'] := by
    simp [tokenize, tokenizeLoop, tokenizeStep, unaryContext, last, isNumberStart,
      isOperatorChar, stofDecimal, stofFraction, stofExponent, stofExponentDigits, digitsValue,
      Token.number, Token.operator, Token.ofType]
  have hadj : NoNumberAfterRPar [Token.number 6, Token.operator '*', Token.number 7,
      Token.operator '+'] := by
    apply noNumberAfterRPar_of_no_rpar
    intro t ht
    simp only [List.mem_cons, List.mem_singleton, List.not_mem_nil, or_false] at ht
    rcases ht with rfl | rfl | rfl | rfl <;> simp [Token.number, Token.operator]
  ⟨h, hadj, (pipeline_trailing_operator_fails stofDecimal natPow (Token.number 0) _ _ h
    ⟨Token.operator '+', rfl, rfl⟩ hadj).1⟩

/-! ## Chains of one operator -/

theorem operatorChain_append_singleton (op : Char) (xs : List ℚ) :
    operatorChain op xs ++ [Token.operator op] = Token.operator op :: operandChain op xs := by
  induction xs with
  | nil => rfl
  | cons y ys ih =>
    simp only [operatorChain, operandChain, List.cons_append, List.cons.injEq, true_and]
    exact ih

theorem operatorChain_append_operator (op : Char) (xs : List ℚ) (x : ℚ) :
    Token.number x :: (operatorChain op xs ++ [Token.operator op]) =
      operandChain op (x :: xs) := by
  rw [operatorChain_append_singleton]
  rfl

theorem postfixLoop_operatorChain (op : Char) (xs : List ℚ) : ∀ out : List Token,
    postfixLoop (operatorChain op xs) out [Token.operator op] =
      Except.ok (out ++ operatorChain op xs ++ [Token.operator op]) := by
  induction xs with
  | nil =>
    intro out
    simp [operatorChain, postfixLoop, drainStack, Token.operator]
  | cons x xs ih =>
    intro out
    have hpop : popOperators op [Token.operator op] out = ([], out ++ [Token.operator op]) := by
      simp [popOperators, Token.operator]
    simp only [operatorChain]
    rw [postfixLoop_cons]
    simp only [Token.operator]
    rw [show ({ type := TokenType.OPERATOR, value := 0, op := op } : Token) = Token.operator op
      from rfl, hpop]
    simp only
    rw [postfixLoop_cons]
    simp only [Token.number]
    rw [show ({ type := TokenType.NUMBER, value := x, op := Char.ofNat 0 } : Token) =
      Token.number x from rfl, ih]
    simp

theorem evalLoop_operandChain (pow : ℚ → ℚ → ℚ) (op : Char) (xs : List ℚ) : ∀ acc : ℚ,
    evalLoop pow (operandChain op xs) [acc] = foldOperator pow op acc xs := by
  induction xs with
  | nil => intro acc; rfl
  | cons x xs ih =>
    intro acc
    simp only [operandChain, foldOperator]
    rw [evalLoop_cons, evalLoop_cons]
    simp only [Token.number, Token.operator, reduceCtorEq, if_true, if_false]
    cases applyOperator pow op acc x with
    | error e => rfl
    | ok v => exact ih v

/-- C13: every operator is left-associative with itself.  The tokens of
`x0 op x1 op ... op xn` are converted to `x0 x1 op x2 op ... xn op`, whose
evaluation is the left fold of the operands; `2 ^ 3 ^ 2` evaluates to
`pow (pow 2 3) 2`, which is `64`. -/
theorem infix_to_postfix_operator_chain (pow : ℚ → ℚ → ℚ) (junk : Token) (op : Char)
    (x0 x1 : ℚ) (xs : List ℚ) :
    infix_to_postfix (Token.number x0 :: operatorChain op (x1 :: xs)) =
      Except.ok (Token.number x0 :: operandChain op (x1 :: xs)) ∧
    evaluate_infix pow (Token.number x0 :: operatorChain op (x1 :: xs)) =
      foldOperator pow op x0 (x1 :: xs) ∧
    pipeline stofDecimal pow junk ['2', ' ', '^', ' ', '3', ' ', '^', ' ', '2'] =
      Except.ok (pow (pow 2 3) 2) ∧
    pipeline stofDecimal natPow junk ['2', ' ', '^', ' ', '3', ' ', '^', ' ', '2'] =
      Except.ok 64 := by
  have hconv : infix_to_postfix (Token.number x0 :: operatorChain op (x1 :: xs)) =
      Except.ok (Token.number x0 :: operandChain op (x1 :: xs)) := by
    unfold infix_to_postfix
    simp only [operatorChain]
    rw [postfixLoop_cons]
    simp only [Token.number]
    rw [postfixLoop_cons]
    simp only [Token.operator, popOperators]
    rw [postfixLoop_cons]
    simp only
    have h := postfixLoop_operatorChain op xs ([] ++ [Token.number x0] ++ [Token.number x1])
    simp only [Token.number, Token.operator] at h
    rw [h]
    have h2 := operatorChain_append_operator op xs x1
    simp only [Token.number, Token.operator] at h2
    simp only [List.nil_append, List.cons_append, List.append_assoc, operandChain, Token.number,
      Token.operator, h2]
  have hpipe : ∀ pw : ℚ → ℚ → ℚ,
      pipeline stofDecimal pw junk ['2', ' ', '^', ' ', '3', ' ', '^', ' ', '2'] =
        Except.ok (pw (pw 2 3) 2) := by
    intro pw
    simp [pipeline, tokenize, tokenizeLoop, tokenizeStep, unaryContext, last, isNumberStart,
      isOperatorChar, stofDecimal, stofFraction, stofExponent, stofExponentDigits, digitsValue,
      Token.number, Token.operator, Token.ofType, infix_to_postfix, postfixLoop, popOperators,
      popUntilLPar, drainStack, strchr, precedence, evaluate_postfix, evalLoop, applyOperator,
      equals, EPSILON]
    norm_num
  refine ⟨hconv, ?_, hpipe pow, ?_⟩
  · unfold evaluate_infix
    rw [hconv]
    simp only [ evaluate_postfix]
    rw [evalLoop_cons]
    simp only [Token.number, reduceCtorEq, if_true, if_false]
    exact evalLoop_operandChain pow op (x1 :: xs) x0
  · rw [hpipe natPow]
    simp [natPow, toInt]
    norm_num

/-! ## Leading whitespace -/

/-- C14 (evaluated at the failing input): after a leading space the `-` of
` -5` stands at position `1`, the unary-context test reads `last` of the empty
token list, and when the token read there is a zero `NUMBER` the `-` is lexed as
a binary `Operator`, whereas `-5` gives `UnaryMinus`; the pipeline then throws
"Invalid expression" on ` -5` and returns `-5` on `-5`.  When the token read out
of bounds is a `UNARY_MINUS`, ` -5` is rejected by the tokenizer. -/
theorem tokenize_leading_space :
    tokenize stofDecimal (Token.number 0) [' ', '-', '5'] =
      Except.ok [Token.operator '-', Token.number 5] ∧
    tokenize stofDecimal (Token.number 0) ['-', '5'] =
      Except.ok [Token.ofType TokenType.UNARY_MINUS, Token.number 5] ∧
    pipeline stofDecimal natPow (Token.number 0) [' ', '-', '5'] =
      Except.error Err.invalidExpression ∧
    pipeline stofDecimal natPow (Token.number 0) ['-', '5'] = Except.ok (-5) ∧
    tokenize stofDecimal (Token.ofType TokenType.UNARY_MINUS) [' ', '-', '5'] =
      Except.error (Err.expectedNumber 1 '-') := by
  refine ⟨?_, ?_, ?_, ?_, ?_⟩
  · simp [tokenize, tokenizeLoop, tokenizeStep, unaryContext, last, isNumberStart,
      isOperatorChar, stofDecimal, stofFraction, stofExponent, stofExponentDigits, digitsValue,
      Token.number, Token.operator, Token.ofType]
  · simp [tokenize, tokenizeLoop, tokenizeStep, unaryContext, last, isNumberStart,
      isOperatorChar, stofDecimal, stofFraction, stofExponent, stofExponentDigits, digitsValue,
      Token.number, Token.operator, Token.ofType]
  · simp [pipeline, tokenize, tokenizeLoop, tokenizeStep, unaryContext, last, isNumberStart,
      isOperatorChar, stofDecimal, stofFraction, stofExponent, stofExponentDigits, digitsValue,
      Token.number, Token.operator, Token.ofType, infix_to_postfix, postfixLoop, popOperators,
      popUntilLPar, drainStack, strchr, precedence, evaluate_postfix, evalLoop, applyOperator]
  · simp [pipeline, tokenize, tokenizeLoop, tokenizeStep, unaryContext, last, isNumberStart,
      isOperatorChar, stofDecimal, stofFraction, stofExponent, stofExponentDigits, digitsValue,
      Token.number, Token.operator, Token.ofType, infix_to_postfix, postfixLoop, popOperators,
      popUntilLPar, drainStack, strchr, precedence, evaluate_postfix, evalLoop, applyOperator]
  · simp [tokenize, tokenizeLoop, tokenizeStep, unaryContext, last, isNumberStart,
      isOperatorChar, stofDecimal, stofFraction, stofExponent, stofExponentDigits, digitsValue,
      Token.number, Token.operator, Token.ofType]

/-! ## Invalid characters -/

theorem evalLoop_removeIgnored (pow : ℚ → ℚ → ℚ) (ts : List Token) : ∀ stack : List ℚ,
    evalLoop pow ts stack = evalLoop pow (removeIgnored ts) stack := by
  induction ts with
  | nil => intro stack; rfl
  | cons t ts ih =>
    intro stack
    unfold removeIgnored at ih ⊢
    cases hty : t.type
    case NUMBER =>
      rw [List.filter_cons_of_pos (by simp [hty]), evalLoop_cons, evalLoop_cons, hty]
      simp only [reduceCtorEq, if_true, if_false]
      exact ih _
    case OPERATOR =>
      rw [List.filter_cons_of_pos (by simp [hty]), evalLoop_cons, evalLoop_cons, hty]
      simp only [reduceCtorEq, if_true, if_false]
      rcases stack with _ | ⟨r, _ | ⟨l, stack⟩⟩
      · rfl
      · rfl
      · simp only
        cases applyOperator pow t.op l r with
        | error e => rfl
        | ok v => exact ih _
    all_goals
      rw [List.filter_cons_of_neg (by simp [hty]), evalLoop_cons, hty]
      simp only [reduceCtorEq, if_true, if_false]
      exact ih _

/-- C16: `evaluate_postfix` gives the same result, value or error, on a token
sequence and on that sequence with all `LPAR`, `RPAR` and `UNARY_MINUS` tokens
removed. -/
theorem evaluate_postfix_ignores_other_tokens (pow : ℚ → ℚ → ℚ) (ts : List Token) :
    evaluate_postfix pow ts = evaluate_postfix pow (removeIgnored ts) := by
  unfold evaluate_postfix
  exact evalLoop_removeIgnored pow ts []

/-! ## Parenthesised expression trees -/

/-- The conversion `toInt` truncates toward zero: it is the floor of a
non-negative number and the ceiling of a negative one. -/
theorem toInt_eq_floor_or_ceil (x : ℚ) : toInt x = if 0 ≤ x then ⌊x⌋ else ⌈x⌉ := by
  unfold toInt
  by_cases h : 0 ≤ x
  · rw [if_pos h, Rat.floor_def]
    exact Int.tdiv_eq_ediv (Rat.num_nonneg.mpr h) (Int.ofNat_nonneg _)
  · rw [if_neg h]
    have hx : 0 ≤ -x := by
      have : x < 0 := not_le.mp h
      linarith
    have hfl : ⌊-x⌋ = (-x).num / ((-x).den : ℤ) := Rat.floor_def
    rw [Rat.neg_num, Rat.neg_den] at hfl
    have hn : 0 ≤ -x.num := by
      have := Rat.num_nonneg.mpr hx
      rwa [Rat.neg_num] at this
    have ht : (-x.num).tdiv (x.den : ℤ) = -x.num / (x.den : ℤ) :=
      Int.tdiv_eq_ediv hn (Int.ofNat_nonneg _)
    rw [Int.neg_tdiv] at ht
    have hc : ⌈x⌉ = -⌊-x⌋ := by
      rw [Int.floor_neg, neg_neg]
    rw [hc, hfl, ← ht, neg_neg]

/-- The quotient of two values of `int` is representable unless it is
`INT_MIN / -1`. -/
theorem tdiv_in_int_range (a b : Int) (ha : INT_MIN ≤ a ∧ a ≤ INT_MAX) (hb : b ≠ 0)
    (hq : ¬ (a = INT_MIN ∧ b = -1)) : INT_MIN ≤ a.tdiv b ∧ a.tdiv b ≤ INT_MAX := by
  unfold INT_MIN INT_MAX at *
  by_cases h1 : b = 1
  · subst h1
    rw [Int.tdiv_one]
    exact ha
  by_cases h2 : b = -1
  · subst h2
    have ha' : a ≠ -2147483648 := fun h => hq ⟨h, rfl⟩
    rw [Int.tdiv_neg, Int.tdiv_one]
    omega
  have hn := Int.natAbs_tdiv a b
  have hb2 : 2 ≤ b.natAbs := by omega
  have hle : a.natAbs / b.natAbs ≤ a.natAbs / 2 := Nat.div_le_div_left hb2 (by decide)
  have hdiv : (a.natAbs).div (b.natAbs) = a.natAbs / b.natAbs := rfl
  rw [hdiv] at hn
  have ha2 : a.natAbs ≤ 2147483648 := by omega
  have hq2 : (a.tdiv b).natAbs ≤ 1073741824 := by omega
  omega

theorem neg_tmod_eq (a b : Int) : (-a).tmod b = -(a.tmod b) := by
  rw [Int.tmod_def, Int.tmod_def, Int.neg_tdiv]
  ring

theorem natAbs_tmod_lt (a b : Int) (hb : b ≠ 0) : (a.tmod b).natAbs < b.natAbs := by
  obtain ⟨m, rfl | rfl⟩ := Int.eq_nat_or_neg a <;> obtain ⟨n, rfl | rfl⟩ := Int.eq_nat_or_neg b
  all_goals
    have hn : 0 < n := by
      rcases Nat.eq_zero_or_pos n with h | h
      · subst h; simp at hb
      · exact h
    simp only [Int.tmod_neg, neg_tmod_eq, ← Int.ofNat_tmod, Int.natAbs_neg, Int.natAbs_ofNat]
    exact Nat.mod_lt m hn

/-- The remainder by a non-zero value of `int` is a value of `int`. -/
theorem tmod_in_int_range (a b : Int) (hb : INT_MIN ≤ b ∧ b ≤ INT_MAX) (hb0 : b ≠ 0) :
    INT_MIN ≤ a - b * a.tdiv b ∧ a - b * a.tdiv b ≤ INT_MAX := by
  rw [← Int.tmod_def]
  have h := natAbs_tmod_lt a b hb0
  unfold INT_MIN INT_MAX at *
  omega

/-- C18 (where the source is defined): when both conversions `(int)l` and
`(int)r` are defined and the pair is not `INT_MIN % -1`, `l r %` throws
"Division by zero" exactly when `r` truncated toward zero is `0`, and otherwise
returns the truncated-division remainder
`trunc(l) - trunc(r) * trunc(trunc(l) / trunc(r))`; `7.9 % 2.5` is `1`,
`-7 % 2` is `-1`, and `5 % 0.9` throws; the quotient and the remainder are then
representable in `int`, so the `%` of the source is defined.  At `l = -2147483648`, `r = -1` both
conversions are defined, the divisor is not `0`, and the quotient `2147483648`
exceeds `INT_MAX`: there the `%` of the source is undefined. -/
theorem evaluate_postfix_remainder (pow : ℚ → ℚ → ℚ) (l r : ℚ)
    (hl : InIntRange l) (hr : InIntRange r)
    (hq : ¬ (toInt l = INT_MIN ∧ toInt r = -1)) :
    evaluate_postfix pow [Token.number l, Token.number r, Token.operator '%'] =
      (if toInt r = 0 then Except.error Err.divisionByZero
        else Except.ok ((toInt l - toInt r * (toInt l).tdiv (toInt r) : Int) : ℚ)) ∧
    ( evaluate_postfix pow [Token.number l, Token.number r, Token.operator '%'] =
      Except.error Err.divisionByZero ↔ toInt r = 0) ∧
    toInt l = (if 0 ≤ l then ⌊l⌋ else ⌈l⌉) ∧
    evaluate_postfix pow [Token.number (79 / 10), Token.number (5 / 2), Token.operator '%'] =
      Except.ok 1 ∧
    evaluate_postfix pow [Token.number (-7), Token.number 2, Token.operator '%'] =
      Except.ok (-1) ∧
    evaluate_postfix pow [Token.number 5, Token.number (9 / 10), Token.operator '%'] =
      Except.error Err.divisionByZero ∧
    (toInt r = 0 ∨
      (INT_MIN ≤ (toInt l).tdiv (toInt r) ∧ (toInt l).tdiv (toInt r) ≤ INT_MAX ∧
        INT_MIN ≤ toInt l - toInt r * (toInt l).tdiv (toInt r) ∧
        toInt l - toInt r * (toInt l).tdiv (toInt r) ≤ INT_MAX)) ∧
    (InIntRange (-2147483648) ∧ InIntRange (-1) ∧ toInt (-2147483648) = INT_MIN ∧
      toInt (-1) = -1 ∧ INT_MAX < (toInt (-2147483648)).tdiv (toInt (-1))) := by
  have hrem : ∀ a b : ℚ,
      evaluate_postfix pow [Token.number a, Token.number b, Token.operator '%'] =
        (if toInt b = 0 then Except.error Err.divisionByZero
          else Except.ok ((toInt a - toInt b * (toInt a).tdiv (toInt b) : Int) : ℚ)) := by
    intro a b
    by_cases h : toInt b = 0
    · simp [ evaluate_postfix, evalLoop, applyOperator, Token.number, Token.operator, h]
    · simp [ evaluate_postfix, evalLoop, applyOperator, Token.number, Token.operator, h,
        Int.tmod_def]
  have h1 : toInt (79 / 10) = 7 := by
    unfold toInt
    norm_num
    rfl
  have h2 : toInt (5 / 2) = 2 := by
    unfold toInt
    norm_num
    rfl
  have h3 : toInt (-7) = -7 := by
    unfold toInt
    norm_num
  have h4 : toInt 2 = 2 := by
    unfold toInt
    norm_num
  have h5 : toInt (9 / 10) = 0 := by
    unfold toInt
    norm_num
    rfl
  have h6 : toInt (-2147483648) = -2147483648 := by
    unfold toInt
    norm_num
  have h7 : toInt (-1) = -1 := by
    unfold toInt
    norm_num
  refine ⟨hrem l r, ?_, toInt_eq_floor_or_ceil l, ?_, ?_, ?_, ?_, ?_⟩
  · rw [hrem l r]
    by_cases h : toInt r = 0 <;> simp [h]
  · have ht : Int.tdiv 7 2 = 3 := by decide
    rw [hrem, h1, h2, ht]
    norm_num
  · have ht : Int.tdiv (-7) 2 = -3 := by decide
    rw [hrem, h3, h4, ht]
    norm_num
  · rw [hrem, h5]
    simp
  · by_cases h : toInt r = 0
    · exact Or.inl h
    · have hq' := tdiv_in_int_range (toInt l) (toInt r) hl h hq
      have hm := tmod_in_int_range (toInt l) (toInt r) hr h
      exact Or.inr ⟨hq'.1, hq'.2, hm.1, hm.2⟩
  · unfold InIntRange
    rw [h6, h7]
    unfold INT_MIN INT_MAX
    refine ⟨by decide, by decide, rfl, rfl, by decide⟩

/-- Witness for `evaluate_postfix_remainder` on `7.9 % 2.5`. -/
theorem evaluate_postfix_remainder_witness :
    InIntRange (79 / 10) ∧ InIntRange (5 / 2) ∧
      ¬ (toInt (79 / 10) = INT_MIN ∧ toInt (5 / 2) = -1) ∧
      ( evaluate_postfix natPow
          [Token.number (79 / 10), Token.number (5 / 2), Token.operator '%'] =
        Except.error Err.divisionByZero ↔ toInt (5 / 2) = 0) :=
  have h1 : toInt (79 / 10) = 7 := by
    unfold toInt
    norm_num
    rfl
  have h2 : toInt (5 / 2) = 2 := by
    unfold toInt
    norm_num
    rfl
  have hl : InIntRange (79 / 10) := by
    unfold InIntRange INT_MIN INT_MAX
    rw [h1]
    decide
  have hr : InIntRange (5 / 2) := by
    unfold InIntRange INT_MIN INT_MAX
    rw [h2]
    decide
  have hq : ¬ (toInt (79 / 10) = INT_MIN ∧ toInt (5 / 2) = -1) := by
    rw [h1, h2]
    decide
  ⟨hl, hr, hq, ( evaluate_postfix_remainder natPow (79 / 10) (5 / 2) hl hr hq).2.1⟩

/-! ## Reads of `last` on an empty token list -/

/-- C19 (evaluated at the failing inputs): on each of `)`, ` *3`, ` -5` and
`++5` the tokenizer calls `tokens.last()` while the token list is empty,
whatever token that read returns. -/
theorem tokenize_reads_last_of_empty (junk : Token) :
    readsLastOfEmpty stofDecimal junk 0 0 [] [')'] = true ∧
    readsLastOfEmpty stofDecimal junk 0 0 [] [' ', '*', '3'] = true ∧
    readsLastOfEmpty stofDecimal junk 0 0 [] [' ', '-', '5'] = true ∧
    readsLastOfEmpty stofDecimal junk 0 0 [] ['+', '+', '5'] = true := by
  refine ⟨?_, ?_, ?_, ?_⟩
  · simp [readsLastOfEmpty, stepCallsLast]
  · simp [readsLastOfEmpty, stepCallsLast, tokenizeStep, unaryContext, isNumberStart,
      isOperatorChar]
  · simp [readsLastOfEmpty, stepCallsLast, tokenizeStep, unaryContext, isNumberStart,
      isOperatorChar]
  · simp [readsLastOfEmpty, stepCallsLast, tokenizeStep, unaryContext, isNumberStart,
      isOperatorChar]

/-! ## The symbols of the operator tokens -/

theorem forall_mem_append_singleton (P : Token → Prop) (l : List Token) (x : Token)
    (hl : ∀ t ∈ l, P t) (hx : P x) : ∀ t ∈ l ++ [x], P t := by
  intro t ht
  rcases List.mem_append.mp ht with h | h
  · exact hl t h
  · rw [List.mem_singleton] at h
    subst h
    exact hx

theorem tokenizeStep_knownOperator (stof : List Char → Option (ℚ × Nat)) (junk : Token)
    (i : Nat) (tokens : List Token) (ch : Char) (cs : List Char) (skip : Nat)
    (tokens' : List Token)
    (h : tokenizeStep stof junk i tokens ch cs = Except.ok (skip, tokens'))
    (hk : ∀ t ∈ tokens, KnownOperator t) : ∀ t ∈ tokens', KnownOperator t := by
  have hnum : ∀ v : ℚ, KnownOperator (Token.number v) := fun v hv => by cases hv
  have hty : ∀ ty : TokenType, ty ≠ TokenType.OPERATOR → KnownOperator (Token.ofType ty) :=
    fun ty hne hv => absurd hv hne
  have hstar : KnownOperator (Token.operator '*') := fun _ => by decide
  unfold tokenizeStep at h
  split_ifs at h with h1 h2 h3 h4 h5 h6 h7 h8 h9 h10 h11
  · cases h; exact hk
  · cases h
    exact forall_mem_append_singleton _ _ _ hk (hty _ (by decide))
  · split at h
    · cases h
    · cases h
      exact forall_mem_append_singleton _ _ _ hk (hnum _)
  · cases h; exact hk
  · cases h
    exact forall_mem_append_singleton _ _ _ hk (fun _ => h6)
  · cases h
    exact forall_mem_append_singleton _ _ _
      (forall_mem_append_singleton _ _ _ hk hstar) (hty _ (by decide))
  · cases h
    exact forall_mem_append_singleton _ _ _ hk (hty _ (by decide))
  · cases h
    exact forall_mem_append_singleton _ _ _ hk (hty _ (by decide))

theorem tokenizeLoop_knownOperator (stof : List Char → Option (ℚ × Nat)) (junk : Token)
    (str : List Char) : ∀ (skip i : Nat) (tokens result : List Token),
    tokenizeLoop stof junk skip i tokens str = Except.ok result →
      (∀ t ∈ tokens, KnownOperator t) → ∀ t ∈ result, KnownOperator t := by
  induction str with
  | nil =>
    intro skip i tokens result h hk
    simp only [tokenizeLoop] at h
    cases h
    exact hk
  | cons ch cs ih =>
    intro skip i tokens result h hk
    cases skip with
    | succ skip =>
      rw [tokenizeLoop_cons_succ] at h
      exact ih _ _ _ _ h hk
    | zero =>
      rw [tokenizeLoop_cons_zero] at h
      split at h
      · cases h
      · rename_i sk tk hstep
        exact ih _ _ _ _ h (tokenizeStep_knownOperator stof junk i tokens ch cs sk tk hstep hk)

theorem popOperators_forall (P : Token → Prop) (op : Char) (stack : List Token) :
    ∀ out : List Token, (∀ t ∈ out, P t) → (∀ t ∈ stack, P t) →
      (∀ t ∈ (popOperators op stack out).1, P t) ∧
        (∀ t ∈ (popOperators op stack out).2, P t) := by
  induction stack with
  | nil => intro out ho hs; exact ⟨hs, ho⟩
  | cons t stack ih =>
    intro out ho hs
    rw [popOperators_cons]
    split_ifs
    · exact ih _ (forall_mem_append_singleton P _ _ ho (hs t (List.mem_cons_self _ _)))
        (fun x hx => hs x (List.mem_cons_of_mem _ hx))
    · exact ⟨hs, ho⟩
    · exact ⟨hs, ho⟩

theorem popUntilLPar_forall (P : Token → Prop) (stack : List Token) :
    ∀ out : List Token, (∀ t ∈ out, P t) → (∀ t ∈ stack, P t) →
      (∀ t ∈ (popUntilLPar stack out).1, P t) ∧
        (∀ t ∈ (popUntilLPar stack out).2, P t) := by
  induction stack with
  | nil => intro out ho hs; exact ⟨hs, ho⟩
  | cons t stack ih =>
    intro out ho hs
    rw [popUntilLPar_cons]
    split_ifs
    · exact ih _ (forall_mem_append_singleton P _ _ ho (hs t (List.mem_cons_self _ _)))
        (fun x hx => hs x (List.mem_cons_of_mem _ hx))
    · exact ⟨hs, ho⟩

theorem drainStack_forall (P : Token → Prop) (stack : List Token) :
    ∀ out p : List Token, drainStack stack out = Except.ok p →
      (∀ t ∈ out, P t) → (∀ t ∈ stack, P t) → ∀ t ∈ p, P t := by
  induction stack with
  | nil =>
    intro out p h ho _
    simp only [drainStack] at h
    cases h
    exact ho
  | cons t stack ih =>
    intro out p h ho hs
    simp only [drainStack] at h
    split_ifs at h
    exact ih _ _ h (forall_mem_append_singleton P _ _ ho (hs t (List.mem_cons_self _ _)))
      (fun x hx => hs x (List.mem_cons_of_mem _ hx))

theorem postfixLoop_knownOperator (ts : List Token) : ∀ out stack p : List Token,
    postfixLoop ts out stack = Except.ok p → (∀ t ∈ ts, KnownOperator t) →
      (∀ t ∈ out, KnownOperator t) → (∀ t ∈ stack, KnownOperator t) →
      ∀ t ∈ p, KnownOperator t := by
  induction ts with
  | nil =>
    intro out stack p h _ ho hs
    rw [postfixLoop_nil] at h
    exact drainStack_forall KnownOperator stack out p h ho hs
  | cons t ts ih =>
    intro out stack p h ht ho hs
    have ht0 := ht t (List.mem_cons_self _ _)
    have ht' : ∀ x ∈ ts, KnownOperator x := fun x hx => ht x (List.mem_cons_of_mem _ hx)
    have hcons : ∀ (x : Token) (s : List Token), KnownOperator x →
        (∀ y ∈ s, KnownOperator y) → ∀ y ∈ x :: s, KnownOperator y := by
      intro x s hx hs' y hy
      rcases List.mem_cons.mp hy with h | h
      · subst h
        exact hx
      · exact hs' y h
    rw [postfixLoop_cons] at h
    cases hty : t.type
    case NUMBER =>
      rw [hty] at h
      exact ih _ _ _ h ht' (forall_mem_append_singleton _ _ _ ho ht0) hs
    case OPERATOR =>
      rw [hty] at h
      obtain ⟨a, b⟩ := popOperators_forall KnownOperator t.op stack out ho hs
      exact ih _ _ _ h ht' b (hcons _ _ ht0 a)
    case UNARY_MINUS =>
      rw [hty] at h
      exact ih _ _ _ h ht'
        (forall_mem_append_singleton _ _ _ ho (fun hv => by cases hv))
        (hcons _ _ (fun _ => by decide) hs)
    case LPAR =>
      rw [hty] at h
      exact ih _ _ _ h ht' ho (hcons _ _ ht0 hs)
    case RPAR =>
      rw [hty] at h
      simp only at h
      obtain ⟨a, b⟩ := popUntilLPar_forall KnownOperator stack out ho hs
      rcases hp : popUntilLPar stack out with ⟨s', o'⟩
      rw [hp] at h a b
      cases s' with
      | nil => simp only at h; cases h
      | cons x s' =>
        simp only at h a b
        exact ih _ _ _ h ht' b (fun y hy => a y (List.mem_cons_of_mem _ hy))

theorem applyOperator_ne_invalidOperator (pow : ℚ → ℚ → ℚ) (op : Char) (l r : ℚ)
    (h : isOperatorChar op = true) : applyOperator pow op l r ≠ Except.error Err.invalidOperator := by
  simp only [isOperatorChar, decide_eq_true_eq] at h
  unfold applyOperator
  rcases h with h | h | h | h | h | h <;> subst h <;> simp <;> split_ifs <;> simp

theorem evalLoop_ne_invalidOperator (pow : ℚ → ℚ → ℚ) (ts : List Token) :
    (∀ t ∈ ts, KnownOperator t) → ∀ stack : List ℚ,
      evalLoop pow ts stack ≠ Except.error Err.invalidOperator := by
  induction ts with
  | nil =>
    intro _ stack
    rcases stack with _ | ⟨v, _ | ⟨w, stack⟩⟩ <;> simp [evalLoop]
  | cons t ts ih =>
    intro hk stack
    have ht := hk t (List.mem_cons_self _ _)
    have hk' : ∀ x ∈ ts, KnownOperator x := fun x hx => hk x (List.mem_cons_of_mem _ hx)
    rw [evalLoop_cons]
    by_cases hty : t.type = TokenType.OPERATOR
    · rw [if_pos hty]
      rcases stack with _ | ⟨r, _ | ⟨l, stack⟩⟩
      · simp
      · simp
      · simp only
        have hne := applyOperator_ne_invalidOperator pow t.op l r (ht hty)
        cases hv : applyOperator pow t.op l r with
        | error e =>
          rw [hv] at hne
          simpa using hne
        | ok v => exact ih hk' _
    · rw [if_neg hty]
      split_ifs
      · exact ih hk' _
      · exact ih hk' _

/-- C20: when `tokenize` and `infix_to_postfix` succeed, every `OPERATOR` token
of the postfix sequence carries one of the symbols `+ - * / % ^`, and
`evaluate_postfix` does not throw "Invalid operator". -/
theorem pipeline_no_invalid_operator (stof : List Char → Option (ℚ × Nat))
    (pow : ℚ → ℚ → ℚ) (junk : Token) (s : List Char) (toks p : List Token)
    (h1 : tokenize stof junk s = Except.ok toks)
    (h2 : infix_to_postfix toks = Except.ok p) :
    (∀ t ∈ p, t.type = TokenType.OPERATOR → isOperatorChar t.op = true) ∧
      evaluate_postfix pow p ≠ Except.error Err.invalidOperator ∧
      pipeline stof pow junk s ≠ Except.error Err.invalidOperator := by
  have hk : ∀ t ∈ toks, KnownOperator t :=
    tokenizeLoop_knownOperator stof junk s 0 0 [] toks h1 (fun t ht => by cases ht)
  have hp : ∀ t ∈ p, KnownOperator t :=
    postfixLoop_knownOperator toks [] [] p h2 hk (fun t ht => by cases ht)
      (fun t ht => by cases ht)
  have he := evalLoop_ne_invalidOperator pow p hp []
  refine ⟨hp, he, ?_⟩
  unfold pipeline
  rw [h1]
  simp only
  rw [h2]
  exact he

/-- Witness for `pipeline_no_invalid_operator` on the input `2^3`. -/
theorem pipeline_no_invalid_operator_witness :
    tokenize stofDecimal (Token.number 0) ['2', '^', '3'] =
      Except.ok [Token.number 2, Token.operator '^', Token.number 3] ∧
    infix_to_postfix [Token.number 2, Token.operator '^', Token.number 3] =
      Except.ok [Token.number 2, Token.number 3, Token.operator '^'] ∧
    evaluate_postfix natPow [Token.number 2, Token.number 3, Token.operator '^'] ≠
      Except.error Err.invalidOperator :=
  have h1 : tokenize stofDecimal (Token.number 0) ['2', '^', '3'] =
      Except.ok [Token.number 2, Token.operator '^', Token.number 3] := by
    simp [tokenize, tokenizeLoop, tokenizeStep, unaryContext, last, isNumberStart,
      isOperatorChar, stofDecimal, stofFraction, stofExponent, stofExponentDigits, digitsValue,
      Token.number, Token.operator, Token.ofType]
  have h2 : infix_to_postfix [Token.number 2, Token.operator '^', Token.number 3] =
      Except.ok [Token.number 2, Token.number 3, Token.operator '^'] := by
    simp [ infix_to_postfix, postfixLoop, popOperators, drainStack, Token.number, Token.operator]
  ⟨h1, h2, (pipeline_no_invalid_operator stofDecimal natPow (Token.number 0) _ _ _ h1 h2).2.1⟩

end Calc
